import Mathlib

/-!
# Loading-screen animation (`app/static/js/app.js`)

A shallow embedding of the numeric and scheduling core of the loader script:
the dissolve burst (`dissolve` / `drawBurst`), the background particles
(`bgParticles` / `drawParticles`), the outline trace (`drawOutline`), the
petal idle motion (`createPetal` / `breathe`) and the timer sequence.

JavaScript numbers are modelled by exact rationals, and where the end points
of a range depend on rounding (the creation of the background particles) by
binary64 arithmetic (`round64`); `Math.random()` is an arbitrary stream of
values, `Math.sin` an arbitrary function.
-/

namespace Lotus

/-! ## Dissolve burst -/

/-- One entry of the `particles` array built by `dissolve`. -/
structure Particle where
  x : ℚ
  y : ℚ
  vx : ℚ
  vy : ℚ
  size : ℚ
  alpha : ℚ
  deriving DecidableEq

/-- State of one `particles.forEach` pass: the array as it currently is, and
the callback invocations made so far as pairs `(i, p)` of the index and the
particle handed to the callback (the particle that is drawn with
`rgba(190,180,255,p.alpha)`). -/
structure BurstState where
  particles : List Particle
  visits : List (Nat × Particle)
  deriving DecidableEq

/-- The field updates of the `forEach` callback body of `drawBurst`:
`p.x += p.vx; p.y += p.vy; p.alpha -= 0.018`. -/
def Particle.advance (p : Particle) : Particle :=
  { p with x := p.x + p.vx, y := p.y + p.vy, alpha := p.alpha - 18 / 1000 }

/-- The callback of `drawBurst` applied to the element at index `i`: the
particle is drawn, advanced in place, and spliced out when its new alpha is
`<= 0`. -/
def burstCallback (st : BurstState) (i : Nat) (p : Particle) : BurstState :=
  let q := p.advance
  { particles := if q.alpha ≤ 0 then st.particles.eraseIdx i else st.particles.set i q
    visits := st.visits ++ [(i, p)] }

/-- The loop of `Array.prototype.forEach`: `n` iterations remain, `k` is the
current index. The length is read once before the loop; at each index the
callback runs only when the index is still present in the array. -/
def burstLoop : Nat → Nat → BurstState → BurstState
  | 0, _, st => st
  | n + 1, k, st =>
    match st.particles.get? k with
    | some p => burstLoop n (k + 1) (burstCallback st k p)
    | none => burstLoop n (k + 1) st

/-- One call of `drawBurst`: a full `forEach` pass over `particles`. -/
def drawBurst (ps : List Particle) : BurstState :=
  burstLoop ps.length 0 { particles := ps, visits := [] }

/-- The array after `n` animation frames of `drawBurst`. -/
def burstFrames : Nat → List Particle → List Particle
  | 0, ps => ps
  | n + 1, ps => burstFrames n (drawBurst ps).particles

/-- The alpha values used as fill opacity during the frame that starts from
`ps`. -/
def drawnAlphas (ps : List Particle) : List ℚ :=
  (drawBurst ps).visits.map (fun v => v.2.alpha)

/-- The array pushed by the `for` loop of `dissolve`: 80 particles with
`alpha: 1`; `rnd j` is the value of the `j`-th `Math.random()` call, `w` and
`h` the canvas size. -/
def dissolveParticles (w h : ℚ) (rnd : Nat → ℚ) : List Particle :=
  (List.range 80).map fun i =>
    { x := w / 2 + (rnd (5 * i) - 1 / 2) * 60
      y := h / 2 + (rnd (5 * i + 1) - 1 / 2) * 40
      vx := (rnd (5 * i + 2) - 1 / 2) * 3
      vy := (rnd (5 * i + 3) - 1 / 2) * 2
      size := rnd (5 * i + 4) * 2 + 6 / 10
      alpha := 1 }

/-! ### Structural description of one `forEach` pass -/

/-- What a pass does to the not yet visited tail of the array: a visited
particle that expires is dropped and the element behind it moves into the
visited prefix without being visited. -/
def sweep : List Particle → List Particle
  | [] => []
  | [p] => if p.advance.alpha ≤ 0 then [] else [p.advance]
  | p :: s :: rest =>
    if p.advance.alpha ≤ 0 then s :: sweep rest else p.advance :: sweep (s :: rest)

/-- The callback invocations a pass makes on the not yet visited tail, the
first of them at index `k`. -/
def sweepVisits : Nat → List Particle → List (Nat × Particle)
  | _, [] => []
  | k, [p] => [(k, p)]
  | k, p :: s :: rest =>
    if p.advance.alpha ≤ 0 then (k, p) :: sweepVisits (k + 1) rest
    else (k, p) :: sweepVisits (k + 1) (s :: rest)

/-- Opacity is a valid, visible one: `0 < alpha <= 1`. -/
def Particle.Visible (p : Particle) : Prop := 0 < p.alpha ∧ p.alpha ≤ 1

/-- The particle would be spliced out by the callback. -/
def Particle.Expires (p : Particle) : Prop := p.advance.alpha ≤ 0

instance (p : Particle) : Decidable p.Visible := by
  unfold Particle.Visible; infer_instance

instance (p : Particle) : Decidable p.Expires := by
  unfold Particle.Expires; infer_instance

/-! ## Background particles -/

/-- One entry of `bgParticles`. -/
structure BgParticle where
  x : ℚ
  y : ℚ
  r : ℚ
  alpha : ℚ
  speedY : ℚ
  deriving DecidableEq

/-- The object built by the `Array.from` callback for element `i`, in exact
arithmetic (`mkBgParticle64` is the same in binary64 arithmetic); the five
`Math.random()` calls of the object literal are the calls number `5 * i` to
`5 * i + 4` of the stream `rnd`, `w` and `h` are `canvas.width` and
`canvas.height`. -/
def mkBgParticle (w h : ℚ) (rnd : ℕ → ℚ) (i : ℕ) : BgParticle :=
  { x := rnd (5 * i) * w
    y := rnd (5 * i + 1) * h
    r := rnd (5 * i + 2) * (16 / 10) + 3 / 10
    alpha := rnd (5 * i + 3) * (25 / 100) + 5 / 100
    speedY := 1 / 10 + rnd (5 * i + 4) * (2 / 10) }

/-- The array of 160 particles that `Array.from` builds at load time. -/
def bgParticles (w h : ℚ) (rnd : ℕ → ℚ) : List BgParticle :=
  (List.range 160).map (mkBgParticle w h rnd)

/-- The body of the `forEach` callback of `drawParticles` after the drawing
calls: `p.y -= p.speedY`, and when `p.y < -5` the particle re-enters at
`canvas.height + 5` with a new random `x`. `c` counts the `Math.random()`
calls made so far in the frame; the result carries the updated count. -/
def bgCallback (w h : ℚ) (rnd : ℕ → ℚ) (c : ℕ) (p : BgParticle) : BgParticle × ℕ :=
  if p.y - p.speedY < -5 then ({ p with y := h + 5, x := rnd c * w }, c + 1)
  else ({ p with y := p.y - p.speedY }, c)

/-- The `forEach` of `drawParticles` over the remaining elements. The callback
changes fields of the visited object only and never the array itself, so the
pass visits every element once, in order. -/
def drawParticlesFrom (w h : ℚ) (rnd : ℕ → ℚ) : ℕ → List BgParticle → List BgParticle
  | _, [] => []
  | c, p :: rest =>
    (bgCallback w h rnd c p).1 :: drawParticlesFrom w h rnd (bgCallback w h rnd c p).2 rest

/-- One frame of `drawParticles` on a canvas of size `w` by `h`; `rnd j` is
the value of the `j`-th `Math.random()` call of the frame. -/
def drawParticles (w h : ℚ) (rnd : ℕ → ℚ) (ps : List BgParticle) : List BgParticle :=
  drawParticlesFrom w h rnd 0 ps

/-- The array after `n` frames; frame number `k` sees the canvas size
`canvas k` (the canvas may have been resized) and the random stream `rnds k`. -/
def bgFrames (canvas : ℕ → ℚ × ℚ) (rnds : ℕ → ℕ → ℚ) : ℕ → List BgParticle → List BgParticle
  | 0, ps => ps
  | n + 1, ps => drawParticles (canvas n).1 (canvas n).2 (rnds n) (bgFrames canvas rnds n ps)

/-- The particle wraps around in the coming frame. -/
def BgParticle.wraps (p : BgParticle) : Bool := decide (p.y - p.speedY < -5)

/-- Position bounds kept by every frame on a fixed canvas. -/
def BgParticle.InView (w h : ℚ) (p : BgParticle) : Prop :=
  -5 ≤ p.y ∧ p.y ≤ h + 5 ∧ 0 ≤ p.x ∧ p.x ≤ w

instance (w h : ℚ) (p : BgParticle) : Decidable (p.InView w h) := by
  unfold BgParticle.InView; infer_instance

/-! ## Background particles in binary64 arithmetic -/

/-- Rounding of a rational to the nearest integer, ties to the even one. -/
def roundHalfEven (y : ℚ) : ℤ :=
  if y - ⌊y⌋ < 1 / 2 then ⌊y⌋
  else if 1 / 2 < y - ⌊y⌋ then ⌊y⌋ + 1
  else if ⌊y⌋ % 2 = 0 then ⌊y⌋ else ⌊y⌋ + 1

/-- The binary exponent of the binade of `x` in IEEE 754 binary64, the
subnormal range included. -/
def binade (x : ℚ) : ℤ := max (Int.log 2 |x|) (-1022)

/-- The spacing of the binary64 numbers in the binade of `x`. -/
def ulp (x : ℚ) : ℚ := 2 ^ (binade x - 52)

/-- The value of a JavaScript number operation whose exact result is `x`: the
binary64 number nearest to `x`, ties to even. Overflow to infinity is not
modelled; no operation below comes near it. -/
def round64 (x : ℚ) : ℚ := roundHalfEven (x / ulp x) * ulp x

/-- The object built by the `Array.from` callback for element `i`, computed
as JavaScript does: every literal and every product and sum is rounded to
binary64. `w` and `h` are the integers `canvas.width` and `canvas.height`, and
`rnd j` is the value of the `j`-th `Math.random()` call. -/
def mkBgParticle64 (w h : ℕ) (rnd : ℕ → ℚ) (i : ℕ) : BgParticle :=
  { x := round64 (rnd (5 * i) * w)
    y := round64 (rnd (5 * i + 1) * h)
    r := round64 (round64 (rnd (5 * i + 2) * round64 (16 / 10)) + round64 (3 / 10))
    alpha := round64 (round64 (rnd (5 * i + 3) * round64 (25 / 100)) + round64 (5 / 100))
    speedY := round64 (round64 (1 / 10) + round64 (rnd (5 * i + 4) * round64 (2 / 10))) }

/-- The array of 160 particles that `Array.from` builds at load time, in
binary64 arithmetic. -/
def bgParticles64 (w h : ℕ) (rnd : ℕ → ℚ) : List BgParticle :=
  (List.range 160).map (mkBgParticle64 w h rnd)

/-- The body of the `forEach` callback of `drawParticles` in binary64
arithmetic: `p.y -= p.speedY` stores the rounded difference, which is then
compared with `-5`; a particle that wraps gets `canvas.height + 5` and
`Math.random() * canvas.width`. -/
def bgCallback64 (w h : ℕ) (rnd : ℕ → ℚ) (c : ℕ) (p : BgParticle) : BgParticle × ℕ :=
  if round64 (p.y - p.speedY) < -5 then
    ({ p with y := round64 (h + 5), x := round64 (rnd c * w) }, c + 1)
  else ({ p with y := round64 (p.y - p.speedY) }, c)

/-- The `forEach` of `drawParticles` over the remaining elements, in binary64
arithmetic. -/
def drawParticlesFrom64 (w h : ℕ) (rnd : ℕ → ℚ) : ℕ → List BgParticle → List BgParticle
  | _, [] => []
  | c, p :: rest =>
    (bgCallback64 w h rnd c p).1 ::
      drawParticlesFrom64 w h rnd (bgCallback64 w h rnd c p).2 rest

/-- One frame of `drawParticles` in binary64 arithmetic. -/
def drawParticles64 (w h : ℕ) (rnd : ℕ → ℚ) (ps : List BgParticle) : List BgParticle :=
  drawParticlesFrom64 w h rnd 0 ps

/-- The array after `n` frames in binary64 arithmetic; frame number `k` sees
the canvas size `canvas k` and the random stream `rnds k`. -/
def bgFrames64 (canvas : ℕ → ℕ × ℕ) (rnds : ℕ → ℕ → ℚ) : ℕ → List BgParticle → List BgParticle
  | 0, ps => ps
  | n + 1, ps =>
    drawParticles64 (canvas n).1 (canvas n).2 (rnds n) (bgFrames64 canvas rnds n ps)

/-! ## Outline trace -/

/-- Path data of an outer petal (`outerPath`). -/
def outerPath : String := "M0,0 C30,-90,60,-90,0,-150 C-60,-90,-30,-90,0,0 Z"

/-- Path data of an inner petal (`innerPath`). -/
def innerPath : String := "M0,0 C20,-60,40,-60,0,-110 C-40,-60,-20,-60,0,0 Z"

/-- Rotations of the outer petals (`outerAngles`). -/
def outerAngles : List Int := [0, 25, -25, 50, -50]

/-- Rotations of the inner petals (`innerAngles`). -/
def innerAngles : List Int := [0, 15, -15, 35, -35]

/-- The attributes `drawOutline` gives an outline `path` element; `rotate` is
the angle of its `transform="rotate(...)"`. -/
structure OutlinePath where
  d : String
  rotate : Int
  fill : String
  stroke : String
  strokeWidth : String
  opacity : String
  deriving DecidableEq

/-- The `paths` array of `drawOutline`:
`[...outerAngles, ...innerAngles].map((angle, i) => ...)`. -/
def outlinePaths : List OutlinePath :=
  (outerAngles ++ innerAngles).enum.map fun ai =>
    { d := if ai.1 < outerAngles.length then outerPath else innerPath
      rotate := ai.2
      fill := "none"
      stroke := "#b8b0ff"
      strokeWidth := "1.3"
      opacity := "0.8" }

/-- The delays of the timers set by `paths.forEach((path, i) => ...)`, in
milliseconds, paired with the index of the path each timer animates. -/
def outlineDelays : List (ℕ × ℕ) :=
  outlinePaths.enum.map fun ip => (ip.1, ip.1 * 150)

/-- Duration in milliseconds of the `stroke-dashoffset 1s ease-out`
transition that traces an outline. -/
def outlineTransitionMs : ℕ := 1000

/-! ## Timer sequence -/

/-- The timer callbacks of the script. -/
inductive Task where
  /-- The callback of `drawOutline` that starts tracing outline `i`. -/
  | outlineTrace (i : ℕ)
  /-- The `resolve` of the promise returned by `drawOutline`; the async
  function then continues with `revealPetals()` and `setTimeout(dissolve, 3000)`. -/
  | resolveOutline
  /-- The callback of `createPetal` for petal `i` of the outer or inner group;
  it sets no timer, and an exception thrown in it ends this callback only. -/
  | petalReveal (inner : Bool) (i : ℕ)
  /-- The function `dissolve`. -/
  | dissolve
  /-- The callback of `dissolve` that swaps the overlay for the shell. -/
  | swap
  /-- The callback `appShell.style.opacity = 1`. -/
  | shellFadeIn
  deriving DecidableEq

/-- The observable effects that are recorded. -/
inductive Event where
  | outlineTraceStarted (i : ℕ)
  | outlineResolved
  | revealPetalsCalled
  | petalRevealed (inner : Bool) (i : ℕ)
  | dissolveStarted
  | overlayRemoved
  | shellDisplayFlex
  | shellOpacity (v : ℕ)
  deriving DecidableEq

/-- A pending timer: the time at which it fires and its callback. -/
structure Timer where
  due : ℕ
  task : Task
  deriving DecidableEq

/-- The event loop: the current time in milliseconds since the start of the
`DOMContentLoaded` handler, the pending timers in the order they were set,
and the effects so far with their times. Animation-frame callbacks set no
timers and are not part of it. -/
structure Loop where
  now : ℕ
  timers : List Timer
  log : List (ℕ × Event)
  deriving DecidableEq

/-- The call `setTimeout(task, delay)` in the nominal schedule: the timer fires exactly
`delay` milliseconds after it is set. -/
def setTimeout (task : Task) (delay : ℕ) (s : Loop) : Loop :=
  { s with timers := s.timers ++ [{ due := s.now + delay, task := task }] }

/-- Record an effect at the current time. -/
def emit (e : Event) (s : Loop) : Loop :=
  { s with log := s.log ++ [(s.now, e)] }

/-- The timers set by `drawOutline`: one per path with delay `i * 150`, then
the timer that resolves the returned promise after 2000 ms. -/
def drawOutline (s : Loop) : Loop :=
  setTimeout Task.resolveOutline 2000
    (outlineDelays.foldl (fun acc id => setTimeout (Task.outlineTrace id.1) id.2 acc) s)

/-- The timers set by `revealPetals` through `createPetal`: delay `i * 150`
for the outer petals, `600 + i * 150` for the inner ones. -/
def revealPetals (s : Loop) : Loop :=
  (innerAngles.enum.foldl
    (fun acc ia => setTimeout (Task.petalReveal true ia.1) (600 + ia.1 * 150) acc)
    (outerAngles.enum.foldl
      (fun acc ia => setTimeout (Task.petalReveal false ia.1) (ia.1 * 150) acc)
      (emit Event.revealPetalsCalled s)))

/-- The function `dissolve` as far as the sequence goes: it starts the burst
and the fades, and sets the 1500 ms timer of the swap. -/
def dissolve (s : Loop) : Loop :=
  setTimeout Task.swap 1500 (emit Event.dissolveStarted s)

/-- The swap callback of `dissolve`: `overlay.remove()`, then
`appShell.style.display = "flex"`, then `appShell.style.opacity = 0`, then the
100 ms timer that sets the opacity to 1. -/
def swapOverlay (s : Loop) : Loop :=
  setTimeout Task.shellFadeIn 100
    (emit (Event.shellOpacity 0) (emit Event.shellDisplayFlex (emit Event.overlayRemoved s)))

/-- The rest of the async function once the promise of `drawOutline` has
resolved: `revealPetals()` and `setTimeout(dissolve, 3000)`. -/
def afterOutline (s : Loop) : Loop :=
  setTimeout Task.dissolve 3000 (revealPetals s)

/-- What each timer callback does to the loop. -/
def runTask : Task → Loop → Loop
  | Task.outlineTrace i, s => emit (Event.outlineTraceStarted i) s
  | Task.resolveOutline, s => afterOutline (emit Event.outlineResolved s)
  | Task.petalReveal inner i, s => emit (Event.petalRevealed inner i) s
  | Task.dissolve, s => dissolve s
  | Task.swap, s => swapOverlay s
  | Task.shellFadeIn, s => emit (Event.shellOpacity 1) s

/-- The earliest due time among the pending timers. -/
def earliestDue : List Timer → Option ℕ
  | [] => none
  | t :: ts => some (ts.foldl (fun m u => min m u.due) t.due)

/-- Fire the next timer: the earliest one, and among timers due at the same
time the one that was set first. -/
def fireNext (s : Loop) : Option Loop :=
  match earliestDue s.timers with
  | none => none
  | some d =>
    match s.timers.find? (fun t => t.due = d) with
    | none => none
    | some t => some (runTask t.task { s with now := d, timers := s.timers.erase t })

/-- Fire up to `n` timers. -/
def runLoop : ℕ → Loop → Loop
  | 0, s => s
  | n + 1, s =>
    match fireNext s with
    | none => s
    | some s2 => runLoop n s2

/-- The loop when the `DOMContentLoaded` handler returns: the async function
has called `drawOutline` and waits for its promise. -/
def boot : Loop := drawOutline { now := 0, timers := [], log := [] }

/-- The time of the first occurrence of an event in a log. -/
def timeOf (log : List (ℕ × Event)) (e : Event) : Option ℕ :=
  (log.find? (fun te => te.2 = e)).map (fun te => te.1)

/-- The milestones of the sequence: everything but the per-outline and
per-petal events. -/
def Event.isMilestone : Event → Bool
  | Event.outlineTraceStarted _ => false
  | Event.petalRevealed _ _ => false
  | _ => true

/-- The time at which the trace of outline `i` ends: its start plus the
duration of the transition. -/
def traceEnd (log : List (ℕ × Event)) (i : ℕ) : Option ℕ :=
  (timeOf log (Event.outlineTraceStarted i)).map (fun t => t + outlineTransitionMs)

/-- The trace of outline `i` has ended by time `t`. -/
def traceFinishedBy (log : List (ℕ × Event)) (t i : ℕ) : Bool :=
  match traceEnd log i with
  | some e => decide (e ≤ t)
  | none => false

/-- The trace of outline `i` has started and not yet ended at time `t`. -/
def traceRunningAt (log : List (ℕ × Event)) (t i : ℕ) : Bool :=
  match timeOf log (Event.outlineTraceStarted i) with
  | some b => decide (b ≤ t) && decide (t < b + outlineTransitionMs)
  | none => false

/-! ## Petal idle motion -/

/-- A JavaScript exception. -/
inductive JsError where
  | referenceError (name : String)
  deriving DecidableEq

/-- The names declared in the function scopes that enclose the body of
`breathe`, innermost first: `breathe` itself, its own name, the timer
callback of `createPetal`, `createPetal` (parameters and `petal`),
`revealPetals`, and the `DOMContentLoaded` handler. The arrow functions
`(a, i) => createPetal(...)` are callers of `createPetal`, not enclosing
scopes. -/
def breatheScopes : List (List String) :=
  [["t", "angleOffset", "scaleOffset"],
   ["breathe"],
   ["amp", "scaleAmp"],
   ["group", "pathData", "fill", "angle", "delay", "petal"],
   ["createPetal"],
   ["overlay", "appShell", "lotusContainer", "svgNS", "canvas", "ctx", "resize",
    "bgParticles", "drawFog", "drawParticles", "svg", "defs", "groupOutline",
    "groupOuter", "groupInner", "outerPath", "innerPath", "outerAngles",
    "innerAngles", "drawOutline", "revealPetals", "dissolve"]]

/-- The identifier is declared in one of the scopes. -/
def lexicallyBound (scopes : List (List String)) (name : String) : Bool :=
  scopes.any fun sc => sc.contains name

/-- Reading an identifier that no enclosing scope declares: the property of
the global object when there is one, a `ReferenceError` otherwise. `glob` gives
the numeric properties of the global object. -/
def readGlobal (glob : String → Option ℚ) (name : String) : Except JsError ℚ :=
  match glob name with
  | some v => Except.ok v
  | none => Except.error (JsError.referenceError name)

/-- What a completed `breathe` frame has done: the angle and the factor of the
`transform` attribute `rotate(...) scale(...)` it set, and whether it asked
for the next animation frame. -/
structure BreatheFrame where
  rotate : ℚ
  scale : ℚ
  nextFrameRequested : Bool
  deriving DecidableEq

/-- One call of `breathe` for a petal with base angle `angle` and amplitudes
`amp` and `scaleAmp`; `now` is `Date.now()` and `sin` is `Math.sin`. The
identifier `i` in `2600 + i * 200` is declared in none of the enclosing scopes
(`breatheScopes`), so it is read from the global object. -/
def breathe (glob : String → Option ℚ) (sin : ℚ → ℚ) (now angle amp scaleAmp : ℚ) :
    Except JsError BreatheFrame :=
  match readGlobal glob "i" with
  | Except.error e => Except.error e
  | Except.ok i =>
    let t := now / (2600 + i * 200)
    let angleOffset := sin t * amp
    let scaleOffset := 1 + sin (t * (13 / 10)) * scaleAmp
    Except.ok { rotate := angle + angleOffset, scale := scaleOffset, nextFrameRequested := true }

/-- What the timer callback of `createPetal` leaves behind: the style opacity
and the scale of the style transform it sets first, and the outcome of the
first `breathe` call it then makes. `u1` and `u2` are the two `Math.random()`
values that give `amp` and `scaleAmp`. -/
structure PetalReveal where
  opacity : String
  styleRotate : ℚ
  styleScale : ℚ
  firstBreathe : Except JsError BreatheFrame

/-- The timer callback of `createPetal` for a petal with base angle `angle`. -/
def petalTimer (glob : String → Option ℚ) (sin : ℚ → ℚ) (now angle u1 u2 : ℚ) : PetalReveal :=
  { opacity := "1"
    styleRotate := angle
    styleScale := 1
    firstBreathe := breathe glob sin now angle (8 / 10 + u1 * (3 / 10)) (1 / 100 + u2 * (5 / 1000)) }

/-! ## Lemmas on the dissolve burst -/

theorem get?_append_cons_length {α : Type} (pre : List α) (p : α) (t : List α) :
    (pre ++ p :: t).get? pre.length = some p := by
  induction pre with
  | nil => rfl
  | cons a pre ih => simpa using ih

theorem burstLoop_past_end (n k : Nat) (st : BurstState)
    (h : st.particles.length ≤ k) : burstLoop n k st = st := by
  induction n generalizing k with
  | zero => rfl
  | succ n ih =>
    have hnone : st.particles.get? k = none := List.get?_eq_none.mpr h
    simp only [burstLoop, hnone]
    exact ih (k + 1) (by omega)

theorem burstLoop_eq_sweep (n k : Nat) (st : BurstState) (pre rest : List Particle)
    (hst : st.particles = pre ++ rest) (hk : pre.length = k) (hn : rest.length ≤ n) :
    burstLoop n k st =
      { particles := pre ++ sweep rest, visits := st.visits ++ sweepVisits k rest } := by
  induction n generalizing k st pre rest with
  | zero =>
    obtain ⟨ps, vs⟩ := st
    have hr : rest = [] := List.length_eq_zero.mp (by omega)
    subst hr
    simp only [] at hst
    simp [burstLoop, sweep, sweepVisits, hst]
  | succ n ih =>
    obtain ⟨ps, vs⟩ := st
    simp only [] at hst
    subst hst
    match rest, hn with
    | [], _ =>
      rw [burstLoop_past_end _ _ _ (by simp [hk])]
      simp [sweep, sweepVisits]
    | [p], _ =>
      have hget : (pre ++ [p]).get? k = some p := by
        rw [← hk]; exact get?_append_cons_length pre p []
      simp only [burstLoop, hget, burstCallback]
      by_cases hp : p.advance.alpha ≤ 0
      · rw [burstLoop_past_end _ _ _ (by simp [hp, hk, List.length_eraseIdx])]
        simp [sweep, sweepVisits, hp, ← hk, List.eraseIdx_append_of_length_le]
      · rw [burstLoop_past_end _ _ _ (by simp [hp, hk])]
        simp [sweep, sweepVisits, hp, ← hk]
    | p :: s :: rest, hn =>
      have hget : (pre ++ p :: s :: rest).get? k = some p := by
        rw [← hk]; exact get?_append_cons_length pre p (s :: rest)
      simp only [burstLoop, hget, burstCallback]
      by_cases hp : p.advance.alpha ≤ 0
      · rw [ih (k + 1) _ (pre ++ [s]) rest (by
          simp [hp, ← hk, List.eraseIdx_append_of_length_le]) (by simp [hk])
          (by simp at hn; omega)]
        simp [sweep, sweepVisits, hp]
      · rw [ih (k + 1) _ (pre ++ [p.advance]) (s :: rest) (by
          simp [hp, ← hk]) (by simp [hk])
          (by simp at hn ⊢; omega)]
        simp [sweep, sweepVisits, hp]

theorem drawBurst_eq_sweep (ps : List Particle) :
    drawBurst ps = { particles := sweep ps, visits := sweepVisits 0 ps } := by
  unfold drawBurst
  rw [burstLoop_eq_sweep ps.length 0 _ [] ps rfl rfl (le_refl _)]
  simp

theorem advance_alpha (p : Particle) : p.advance.alpha = p.alpha - 18 / 1000 := rfl

theorem advance_visible (p : Particle) (hp : p.Visible) (he : ¬p.advance.alpha ≤ 0) :
    p.advance.Visible := by
  rw [advance_alpha] at he
  exact ⟨by rw [advance_alpha]; linarith, by rw [advance_alpha]; linarith [hp.2]⟩

theorem sweep_visible (ps : List Particle) (h : ∀ p ∈ ps, p.Visible) :
    ∀ p ∈ sweep ps, p.Visible := by
  induction ps using sweep.induct with
  | case1 => simp [sweep]
  | case2 p he => simp [sweep, he]
  | case3 p he =>
    intro q hq
    simp only [sweep, he, if_false, List.mem_singleton] at hq
    subst hq
    exact advance_visible p (h p (by simp)) he
  | case4 p s rest he ih =>
    intro q hq
    simp only [sweep, he, if_true, List.mem_cons] at hq
    rcases hq with rfl | hq
    · exact h _ (by simp)
    · exact ih (fun r hr => h r (by simp [hr])) q hq
  | case5 p s rest he ih =>
    intro q hq
    simp only [sweep, he, if_false, List.mem_cons] at hq
    rcases hq with rfl | hq
    · exact advance_visible p (h p (by simp)) he
    · exact ih (fun r hr => h r (List.mem_cons_of_mem _ hr)) q hq

theorem sweepVisits_mem (k : Nat) (ps : List Particle) :
    ∀ v ∈ sweepVisits k ps, v.2 ∈ ps ∧ k ≤ v.1 := by
  induction k, ps using sweepVisits.induct with
  | case1 k => simp [sweepVisits]
  | case2 k p => simp [sweepVisits]
  | case3 k p s rest he ih =>
    intro v hv
    simp only [sweepVisits, he, if_true, List.mem_cons] at hv
    rcases hv with rfl | hv
    · simp
    · have := ih v hv
      exact ⟨by simp [this.1], by omega⟩
  | case4 k p s rest he ih =>
    intro v hv
    simp only [sweepVisits, he, if_false, List.mem_cons] at hv
    rcases hv with rfl | hv
    · simp
    · have := ih v hv
      exact ⟨List.mem_cons_of_mem _ this.1, by omega⟩

theorem sweep_length_le (ps : List Particle) : (sweep ps).length ≤ ps.length := by
  induction ps using sweep.induct with
  | case1 => simp [sweep]
  | case2 p he => simp [sweep, he]
  | case3 p he => simp [sweep, he]
  | case4 p s rest he ih =>
    simp only [sweep, he, if_true, List.length_cons]; omega
  | case5 p s rest he ih =>
    simp only [sweep, he, if_false, List.length_cons] at ih ⊢; omega

/-- Every particle that leaves the array in a pass is one whose visit made it
expire, and each such visit removes exactly one particle. -/
theorem sweep_length_add_expired (k : Nat) (ps : List Particle) :
    (sweep ps).length + ((sweepVisits k ps).filter fun v => decide v.2.Expires).length =
      ps.length := by
  induction k, ps using sweepVisits.induct with
  | case1 k => simp [sweep, sweepVisits]
  | case2 k p =>
    by_cases he : p.advance.alpha ≤ 0 <;>
      simp [sweep, sweepVisits, he, Particle.Expires]
  | case3 k p s rest he ih =>
    simp only [sweep, sweepVisits, he, if_true, List.length_cons]
    rw [List.filter_cons_of_pos (by simpa [Particle.Expires] using he)]
    simp only [List.length_cons]; omega
  | case4 k p s rest he ih =>
    simp only [sweep, sweepVisits, he, if_false, List.length_cons] at ih ⊢
    rw [List.filter_cons_of_neg (by simpa [Particle.Expires] using he)]
    omega

/-- A pass in which no visited particle expires advances every particle. -/
theorem sweep_of_none_expire (ps : List Particle) (h : ∀ p ∈ ps, ¬p.advance.alpha ≤ 0) :
    sweep ps = ps.map Particle.advance := by
  induction ps using sweep.induct with
  | case1 => simp [sweep]
  | case2 p he => exact absurd he (h p (by simp))
  | case3 p he => simp [sweep, he]
  | case4 p s rest he ih => exact absurd he (h p (by simp))
  | case5 p s rest he ih =>
    simp only [sweep, he, if_false, List.map_cons]
    rw [ih (fun r hr => h r (List.mem_cons_of_mem _ hr))]
    simp

/-- A pass in which every visited particle expires keeps exactly the
particles at the odd positions, untouched. -/
theorem sweep_of_all_expire (ps : List Particle) (h : ∀ p ∈ ps, p.advance.alpha ≤ 0) :
    (∀ j, (sweep ps).get? j = ps.get? (2 * j + 1)) ∧ (sweep ps).length = ps.length / 2 := by
  induction ps using sweep.induct with
  | case1 => simp [sweep]
  | case2 p he => simp [sweep, he]
  | case3 p he => exact absurd (h p (by simp)) he
  | case4 p s rest he ih =>
    have ih := ih (fun r hr => h r (by simp [hr]))
    simp only [sweep, he, if_true, List.length_cons]
    refine ⟨fun j => ?_, by rw [ih.2]; omega⟩
    cases j with
    | zero => simp
    | succ j =>
      have := ih.1 j
      simpa [show 2 * (j + 1) + 1 = (2 * j + 1) + 1 + 1 by ring] using this
  | case5 p s rest he ih => exact absurd (h p (by simp)) he

theorem sweep_subset_of_all_expire (ps : List Particle)
    (h : ∀ p ∈ ps, p.advance.alpha ≤ 0) : ∀ p ∈ sweep ps, p ∈ ps := by
  induction ps using sweep.induct with
  | case1 => simp [sweep]
  | case2 p he => simp [sweep, he]
  | case3 p he => exact absurd (h p (by simp)) he
  | case4 p s rest he ih =>
    intro q hq
    simp only [sweep, he, if_true, List.mem_cons] at hq
    rcases hq with rfl | hq
    · simp
    · have := ih (fun r hr => h r (by simp [hr])) q hq
      simp [this]
  | case5 p s rest he ih => exact absurd (h p (by simp)) he

/-! ### Frames of the burst -/

theorem drawBurst_particles (ps : List Particle) : (drawBurst ps).particles = sweep ps := by
  rw [drawBurst_eq_sweep]

theorem drawBurst_visits (ps : List Particle) : (drawBurst ps).visits = sweepVisits 0 ps := by
  rw [drawBurst_eq_sweep]

theorem burstFrames_succ (n : Nat) (ps : List Particle) :
    burstFrames (n + 1) ps = (drawBurst (burstFrames n ps)).particles := by
  induction n generalizing ps with
  | zero => rfl
  | succ n ih =>
    show burstFrames (n + 1) (drawBurst ps).particles = _
    rw [ih]; rfl

theorem burstFrames_add (a b : Nat) (ps : List Particle) :
    burstFrames (a + b) ps = burstFrames b (burstFrames a ps) := by
  induction b with
  | zero => rfl
  | succ b ih => rw [← Nat.add_assoc, burstFrames_succ, burstFrames_succ, ih]

theorem burstFrames_visible (n : Nat) (ps : List Particle) (h : ∀ p ∈ ps, p.Visible) :
    ∀ p ∈ burstFrames n ps, p.Visible := by
  induction n with
  | zero => exact h
  | succ n ih =>
    rw [burstFrames_succ, drawBurst_particles]
    exact sweep_visible _ ih

theorem burstFrames_length_le (n : Nat) (ps : List Particle) :
    (burstFrames n ps).length ≤ ps.length := by
  induction n with
  | zero => exact le_refl _
  | succ n ih =>
    rw [burstFrames_succ, drawBurst_particles]
    exact le_trans (sweep_length_le _) ih

theorem dissolveParticles_length (w h : ℚ) (rnd : Nat → ℚ) :
    (dissolveParticles w h rnd).length = 80 := by
  simp [dissolveParticles]

theorem dissolveParticles_alpha (w h : ℚ) (rnd : Nat → ℚ) :
    ∀ p ∈ dissolveParticles w h rnd, p.alpha = 1 := by
  intro p hp
  simp only [dissolveParticles, List.mem_map] at hp
  obtain ⟨i, -, rfl⟩ := hp
  rfl

/-- While fewer than 56 frames have run nothing has expired: all particles
share the alpha `1 - 0.018 * n` and the array still has its initial length. -/
theorem burstFrames_early (ps : List Particle) (h1 : ∀ p ∈ ps, p.alpha = 1) (n : Nat)
    (hn : n ≤ 55) :
    (∀ p ∈ burstFrames n ps, p.alpha = 1 - 18 / 1000 * (n : ℚ)) ∧
      (burstFrames n ps).length = ps.length := by
  induction n with
  | zero => simpa [burstFrames] using h1
  | succ n ih =>
    have ih := ih (by omega)
    have hq : (n : ℚ) ≤ 54 := by exact_mod_cast (by omega : n ≤ 54)
    have halive : ∀ p ∈ burstFrames n ps, ¬p.advance.alpha ≤ 0 := by
      intro p hp
      rw [advance_alpha, ih.1 p hp]
      intro hle
      linarith
    rw [burstFrames_succ, drawBurst_particles, sweep_of_none_expire _ halive]
    refine ⟨?_, by simpa using ih.2⟩
    intro p hp
    simp only [List.mem_map] at hp
    obtain ⟨q, hq', rfl⟩ := hp
    rw [advance_alpha, ih.1 q hq']
    push_cast
    ring

/-- Once every particle expires on its next visit, each frame halves the
array (rounding down) and the survivors are still about to expire. -/
theorem burstFrames_late (ps : List Particle) (h : ∀ p ∈ ps, p.advance.alpha ≤ 0) (m : Nat) :
    (∀ p ∈ burstFrames m ps, p.advance.alpha ≤ 0) ∧
      (burstFrames m ps).length = ps.length / 2 ^ m := by
  induction m with
  | zero => simpa [burstFrames] using h
  | succ m ih =>
    rw [burstFrames_succ, drawBurst_particles]
    refine ⟨fun p hp => ih.1 p (sweep_subset_of_all_expire _ ih.1 p hp), ?_⟩
    rw [(sweep_of_all_expire _ ih.1).2, ih.2, Nat.div_div_eq_div_mul, pow_succ]

/-! ### What a pass leaves alone -/

theorem drop_succ_set {α : Type} (l : List α) (j : Nat) (a : α) :
    (l.set j a).drop (j + 1) = l.drop (j + 1) := by
  induction l generalizing j with
  | nil => simp
  | cons x l ih =>
    cases j with
    | zero => simp
    | succ j => simpa using ih j

theorem drop_succ_eraseIdx {α : Type} (l : List α) (j : Nat) :
    (l.eraseIdx j).drop j = l.drop (j + 1) := by
  induction l generalizing j with
  | nil => simp
  | cons x l ih =>
    cases j with
    | zero => simp
    | succ j => simpa using ih j

theorem take_set_of_le {α : Type} (l : List α) (k j : Nat) (a : α) (h : k ≤ j) :
    (l.set j a).take k = l.take k := by
  induction l generalizing k j with
  | nil => simp
  | cons x l ih =>
    cases k with
    | zero => simp
    | succ k =>
      cases j with
      | zero => omega
      | succ j => simpa using ih k j (by omega)

theorem take_eraseIdx_of_le {α : Type} (l : List α) (k j : Nat) (h : k ≤ j) :
    (l.eraseIdx j).take k = l.take k := by
  induction l generalizing k j with
  | nil => simp
  | cons x l ih =>
    cases k with
    | zero => simp
    | succ k =>
      cases j with
      | zero => omega
      | succ j => simpa using ih k j (by omega)

theorem get?_eraseIdx_self {α : Type} (l : List α) (k : Nat) :
    (l.eraseIdx k).get? k = l.get? (k + 1) := by
  induction l generalizing k with
  | nil => simp
  | cons x l ih =>
    cases k with
    | zero => simp
    | succ k => simpa using ih k

theorem get?_eq_of_take_eq {α : Type} (l l2 : List α) (k : Nat)
    (h : l.take (k + 1) = l2.take (k + 1)) : l.get? k = l2.get? k := by
  have h1 : (l.take (k + 1)).get? k = l.get? k := by
    simp [List.getElem?_take]
  have h2 : (l2.take (k + 1)).get? k = l2.get? k := by
    simp [List.getElem?_take]
  rw [← h1, ← h2, h]

theorem burstLoop_succ_some (n k : Nat) (st : BurstState) (p : Particle)
    (h : st.particles.get? k = some p) :
    burstLoop (n + 1) k st = burstLoop n (k + 1) (burstCallback st k p) := by
  simp only [burstLoop, h]

theorem burstLoop_succ_none (n k : Nat) (st : BurstState)
    (h : st.particles.get? k = none) :
    burstLoop (n + 1) k st = burstLoop n (k + 1) st := by
  simp only [burstLoop, h]

theorem burstCallback_expired (st : BurstState) (k : Nat) (p : Particle)
    (he : p.advance.alpha ≤ 0) :
    burstCallback st k p =
      { particles := st.particles.eraseIdx k, visits := st.visits ++ [(k, p)] } := by
  simp [burstCallback, he]

theorem burstCallback_alive (st : BurstState) (k : Nat) (p : Particle)
    (he : ¬p.advance.alpha ≤ 0) :
    burstCallback st k p =
      { particles := st.particles.set k p.advance, visits := st.visits ++ [(k, p)] } := by
  simp [burstCallback, he]

/-- Splitting the iterations of the `forEach` loop. -/
theorem burstLoop_add (a b k : Nat) (st : BurstState) :
    burstLoop (a + b) k st = burstLoop b (k + a) (burstLoop a k st) := by
  induction a generalizing k st with
  | zero => simp [burstLoop]
  | succ a ih =>
    rw [show a + 1 + b = (a + b) + 1 by omega, show k + (a + 1) = k + 1 + a by omega]
    rcases hg : st.particles.get? k with _ | p
    · rw [burstLoop_succ_none _ _ _ hg, burstLoop_succ_none _ _ _ hg, ih]
    · rw [burstLoop_succ_some _ _ _ p hg, burstLoop_succ_some _ _ _ p hg, ih]

/-- The loop never touches the positions before its current index. -/
theorem burstLoop_take (n k : Nat) (st : BurstState) :
    (burstLoop n k st).particles.take k = st.particles.take k := by
  induction n generalizing k st with
  | zero => rfl
  | succ n ih =>
    rcases hg : st.particles.get? k with _ | p
    · rw [burstLoop_succ_none _ _ _ hg]
      have h2 := congrArg (List.take k) (ih (k + 1) st)
      simpa [List.take_take] using h2
    · rw [burstLoop_succ_some _ _ _ p hg]
      have h2 := congrArg (List.take k) (ih (k + 1) (burstCallback st k p))
      simp only [List.take_take, Nat.min_eq_left (Nat.le_succ k)] at h2
      rw [h2]
      by_cases he : p.advance.alpha ≤ 0
      · rw [burstCallback_expired _ _ _ he]; exact take_eraseIdx_of_le _ _ _ (le_refl _)
      · rw [burstCallback_alive _ _ _ he]; exact take_set_of_le _ _ _ _ (le_refl _)

/-- The callbacks made by `n` iterations starting at index `k` are appended to
the log and carry the indices `k, ..., k + n - 1` only. -/
theorem burstLoop_visits (n k : Nat) (st : BurstState) :
    ∃ later, (burstLoop n k st).visits = st.visits ++ later ∧
      ∀ v ∈ later, k ≤ v.1 ∧ v.1 < k + n := by
  induction n generalizing k st with
  | zero => exact ⟨[], by simp [burstLoop]⟩
  | succ n ih =>
    rcases hg : st.particles.get? k with _ | p
    · rw [burstLoop_succ_none _ _ _ hg]
      obtain ⟨later, h1, h2⟩ := ih (k + 1) st
      exact ⟨later, h1, fun v hv => by have := h2 v hv; omega⟩
    · rw [burstLoop_succ_some _ _ _ p hg]
      obtain ⟨later, h1, h2⟩ := ih (k + 1) (burstCallback st k p)
      refine ⟨(k, p) :: later, by simpa [burstCallback] using h1, ?_⟩
      intro v hv
      rcases List.mem_cons.mp hv with rfl | hv
      · simp
      · have := h2 v hv; omega

/-- After `n` iterations starting at index `k`, the part of the array from
index `k + n` on is the not yet visited part of the array the loop started
with, shifted by the number `r` of particles spliced out. -/
theorem burstLoop_drop (n k : Nat) (st : BurstState) :
    ∃ r, (burstLoop n k st).particles.length + r = st.particles.length ∧
      (burstLoop n k st).particles.drop (k + n) = st.particles.drop (k + n + r) := by
  induction n generalizing k st with
  | zero => exact ⟨0, by simp [burstLoop]⟩
  | succ n ih =>
    rcases hg : st.particles.get? k with _ | p
    · rw [burstLoop_succ_none _ _ _ hg]
      obtain ⟨r, h1, h2⟩ := ih (k + 1) st
      exact ⟨r, h1, by rw [show k + (n + 1) = k + 1 + n by omega]; exact h2⟩
    · have hlt : k < st.particles.length := by
        by_contra hc
        rw [List.get?_eq_none.mpr (by omega)] at hg
        cases hg
      rw [burstLoop_succ_some _ _ _ p hg]
      obtain ⟨r, h1, h2⟩ := ih (k + 1) (burstCallback st k p)
      by_cases he : p.advance.alpha ≤ 0
      · rw [burstCallback_expired _ _ _ he] at h1 h2 ⊢
        simp only [] at h1 h2
        refine ⟨r + 1, ?_, ?_⟩
        · rw [List.length_eraseIdx] at h1
          simp only [hlt, if_true] at h1
          omega
        · rw [show k + (n + 1) = k + 1 + n by omega, h2]
          have h3 := congrArg (List.drop (n + 1 + r)) (drop_succ_eraseIdx st.particles k)
          simp only [List.drop_drop] at h3
          rw [show k + 1 + n + r = k + (n + 1 + r) by omega,
            show k + 1 + n + (r + 1) = k + 1 + (n + 1 + r) by omega]
          exact h3
      · rw [burstCallback_alive _ _ _ he] at h1 h2 ⊢
        simp only [] at h1 h2
        refine ⟨r, by simpa using h1, ?_⟩
        rw [show k + (n + 1) = k + 1 + n by omega, h2]
        have h3 := congrArg (List.drop (n + r)) (drop_succ_set st.particles k p.advance)
        simp only [List.drop_drop] at h3
        rw [show k + 1 + n + r = k + 1 + (n + r) by omega]
        exact h3

/-! ## Lemmas on the background particles -/

theorem bgCallback_fields (w h : ℚ) (rnd : ℕ → ℚ) (c : ℕ) (p : BgParticle) :
    (bgCallback w h rnd c p).1.r = p.r ∧ (bgCallback w h rnd c p).1.alpha = p.alpha ∧
      (bgCallback w h rnd c p).1.speedY = p.speedY := by
  unfold bgCallback
  split <;> simp

theorem drawParticlesFrom_length (w h : ℚ) (rnd : ℕ → ℚ) (c : ℕ) (ps : List BgParticle) :
    (drawParticlesFrom w h rnd c ps).length = ps.length := by
  induction ps generalizing c with
  | nil => rfl
  | cons p rest ih => simp [drawParticlesFrom, ih]

theorem drawParticlesFrom_fields (w h : ℚ) (rnd : ℕ → ℚ) (c : ℕ) (ps : List BgParticle) :
    (drawParticlesFrom w h rnd c ps).map (fun p => (p.r, p.alpha, p.speedY)) =
      ps.map (fun p => (p.r, p.alpha, p.speedY)) := by
  induction ps generalizing c with
  | nil => rfl
  | cons p rest ih =>
    have hf := bgCallback_fields w h rnd c p
    simp [drawParticlesFrom, ih, hf.1, hf.2.1, hf.2.2]

theorem bgFrames_length (canvas : ℕ → ℚ × ℚ) (rnds : ℕ → ℕ → ℚ) (n : ℕ)
    (ps : List BgParticle) : (bgFrames canvas rnds n ps).length = ps.length := by
  induction n with
  | zero => rfl
  | succ n ih => simp [bgFrames, drawParticles, drawParticlesFrom_length, ih]

theorem bgFrames_fields (canvas : ℕ → ℚ × ℚ) (rnds : ℕ → ℕ → ℚ) (n : ℕ)
    (ps : List BgParticle) :
    (bgFrames canvas rnds n ps).map (fun p => (p.r, p.alpha, p.speedY)) =
      ps.map (fun p => (p.r, p.alpha, p.speedY)) := by
  induction n with
  | zero => rfl
  | succ n ih => simp only [bgFrames, drawParticles, drawParticlesFrom_fields, ih]

/-- The element at position `i` after a pass that starts with `c` random
calls made: the callback applied to the old element, with the random call
count advanced once per earlier particle that wrapped. -/
theorem drawParticlesFrom_get? (w h : ℚ) (rnd : ℕ → ℚ) (c : ℕ) (ps : List BgParticle)
    (i : ℕ) (p : BgParticle) (hp : ps.get? i = some p) :
    (drawParticlesFrom w h rnd c ps).get? i =
      some (bgCallback w h rnd (c + ((ps.take i).filter BgParticle.wraps).length) p).1 := by
  induction ps generalizing c i with
  | nil => simp at hp
  | cons q rest ih =>
    cases i with
    | zero =>
      simp only [List.get?_cons_zero, Option.some.injEq] at hp
      subst hp
      simp [drawParticlesFrom]
    | succ i =>
      simp only [List.get?_cons_succ] at hp
      simp only [drawParticlesFrom, List.get?_cons_succ, List.take_succ_cons]
      rw [ih _ i hp]
      by_cases hq : q.y - q.speedY < -5
      · have h2 : (bgCallback w h rnd c q).2 = c + 1 := by simp [bgCallback, hq]
        rw [List.filter_cons_of_pos (by simpa [BgParticle.wraps] using hq), h2,
          List.length_cons, Nat.add_right_comm c 1]
        rfl
      · have h2 : (bgCallback w h rnd c q).2 = c := by simp [bgCallback, hq]
        rw [List.filter_cons_of_neg (by simpa [BgParticle.wraps] using hq), h2]

theorem bgCallback_inView (w h : ℚ) (hw : 0 ≤ w) (hh : 0 ≤ h) (rnd : ℕ → ℚ)
    (hr : ∀ j, 0 ≤ rnd j ∧ rnd j < 1) (c : ℕ) (p : BgParticle)
    (hp : p.InView w h) (hs : 0 ≤ p.speedY) : (bgCallback w h rnd c p).1.InView w h := by
  unfold bgCallback BgParticle.InView at *
  by_cases hq : p.y - p.speedY < -5
  · simp only [hq, if_true]
    have := hr c
    refine ⟨by linarith, by linarith, mul_nonneg this.1 hw, ?_⟩
    calc rnd c * w ≤ 1 * w := mul_le_mul_of_nonneg_right this.2.le hw
      _ = w := one_mul w
  · simp only [hq, if_false]
    exact ⟨by linarith, by linarith, hp.2.2.1, hp.2.2.2⟩

theorem drawParticlesFrom_inView (w h : ℚ) (hw : 0 ≤ w) (hh : 0 ≤ h) (rnd : ℕ → ℚ)
    (hr : ∀ j, 0 ≤ rnd j ∧ rnd j < 1) (c : ℕ) (ps : List BgParticle)
    (hp : ∀ p ∈ ps, p.InView w h ∧ 0 ≤ p.speedY) :
    ∀ p ∈ drawParticlesFrom w h rnd c ps, p.InView w h ∧ 0 ≤ p.speedY := by
  induction ps generalizing c with
  | nil => simp [drawParticlesFrom]
  | cons q rest ih =>
    intro p hmem
    simp only [drawParticlesFrom, List.mem_cons] at hmem
    have hq := hp q (by simp)
    rcases hmem with rfl | hmem
    · exact ⟨bgCallback_inView w h hw hh rnd hr c q hq.1 hq.2,
        by rw [(bgCallback_fields w h rnd c q).2.2]; exact hq.2⟩
    · exact ih _ (fun r hr' => hp r (List.mem_cons_of_mem _ hr')) p hmem

theorem bgFrames_inView (w h : ℚ) (hw : 0 ≤ w) (hh : 0 ≤ h) (rnds : ℕ → ℕ → ℚ)
    (hr : ∀ n j, 0 ≤ rnds n j ∧ rnds n j < 1) (ps : List BgParticle)
    (hp : ∀ p ∈ ps, p.InView w h ∧ 0 ≤ p.speedY) (n : ℕ) :
    ∀ p ∈ bgFrames (fun _ => (w, h)) rnds n ps, p.InView w h ∧ 0 ≤ p.speedY := by
  induction n with
  | zero => exact hp
  | succ n ih => exact drawParticlesFrom_inView w h hw hh (rnds n) (hr n) 0 _ ih

theorem mkBgParticle_ranges (w h : ℚ) (rnd : ℕ → ℚ) (hr : ∀ j, 0 ≤ rnd j ∧ rnd j < 1) (i : ℕ) :
    (5 / 100 ≤ (mkBgParticle w h rnd i).alpha ∧ (mkBgParticle w h rnd i).alpha < 30 / 100) ∧
    (3 / 10 ≤ (mkBgParticle w h rnd i).r ∧ (mkBgParticle w h rnd i).r < 19 / 10) ∧
    (1 / 10 ≤ (mkBgParticle w h rnd i).speedY ∧ (mkBgParticle w h rnd i).speedY < 3 / 10) := by
  have h2 := hr (5 * i + 2)
  have h3 := hr (5 * i + 3)
  have h4 := hr (5 * i + 4)
  simp only [mkBgParticle]
  refine ⟨⟨?_, ?_⟩, ⟨?_, ?_⟩, ⟨?_, ?_⟩⟩ <;> linarith [h2.1, h2.2, h3.1, h3.2, h4.1, h4.2]

theorem mkBgParticle_inView (w h : ℚ) (hw : 0 ≤ w) (hh : 0 ≤ h) (rnd : ℕ → ℚ)
    (hr : ∀ j, 0 ≤ rnd j ∧ rnd j < 1) (i : ℕ) :
    0 ≤ (mkBgParticle w h rnd i).x ∧ (mkBgParticle w h rnd i).x ≤ w ∧
      0 ≤ (mkBgParticle w h rnd i).y ∧ (mkBgParticle w h rnd i).y ≤ h := by
  have h0 := hr (5 * i)
  have h1 := hr (5 * i + 1)
  simp only [mkBgParticle]
  refine ⟨mul_nonneg h0.1 hw, ?_, mul_nonneg h1.1 hh, ?_⟩
  · calc rnd (5 * i) * w ≤ 1 * w := mul_le_mul_of_nonneg_right h0.2.le hw
      _ = w := one_mul w
  · calc rnd (5 * i + 1) * h ≤ 1 * h := mul_le_mul_of_nonneg_right h1.2.le hh
      _ = h := one_mul h

/-! ## Lemmas on binary64 rounding -/

theorem roundHalfEven_eq (y : ℚ) (m : ℤ) (h1 : (m : ℚ) - 1 / 2 < y) (h2 : y < m + 1 / 2) :
    roundHalfEven y = m := by
  unfold roundHalfEven
  by_cases hm : (m : ℚ) ≤ y
  · have hf : ⌊y⌋ = m := Int.floor_eq_iff.mpr ⟨hm, by linarith⟩
    rw [hf, if_pos (by linarith)]
  · have hf : ⌊y⌋ = m - 1 := Int.floor_eq_iff.mpr ⟨by push_cast; linarith, by push_cast; linarith⟩
    rw [hf]
    push_cast
    rw [if_neg (by linarith), if_pos (by linarith)]
    ring

theorem binade_eq (x : ℚ) (e : ℤ) (h1 : (2 : ℚ) ^ e ≤ |x|) (h2 : |x| < 2 ^ (e + 1))
    (he : -1022 ≤ e) : binade x = e := by
  have hpos : 0 < |x| := lt_of_lt_of_le (by positivity) h1
  have ha : e ≤ Int.log 2 |x| := (Int.zpow_le_iff_le_log (by norm_num) hpos).mp (by exact_mod_cast h1)
  have hb : Int.log 2 |x| < e + 1 := (Int.lt_zpow_iff_log_lt (by norm_num) hpos).mp (by exact_mod_cast h2)
  unfold binade
  omega

theorem round64_eq (x : ℚ) (e m : ℤ) (h1 : (2 : ℚ) ^ e ≤ |x|) (h2 : |x| < 2 ^ (e + 1))
    (he : -1022 ≤ e) (h3 : (m : ℚ) - 1 / 2 < x / 2 ^ (e - 52))
    (h4 : x / 2 ^ (e - 52) < m + 1 / 2) : round64 x = m * 2 ^ (e - 52) := by
  unfold round64 ulp
  rw [binade_eq x e h1 h2 he, roundHalfEven_eq _ m h3 h4]


theorem roundHalfEven_floor_le (y : ℚ) : ⌊y⌋ ≤ roundHalfEven y := by
  unfold roundHalfEven
  split_ifs <;> omega

theorem roundHalfEven_le_floor_succ (y : ℚ) : roundHalfEven y ≤ ⌊y⌋ + 1 := by
  unfold roundHalfEven
  split_ifs <;> omega

theorem roundHalfEven_mono (y z : ℚ) (h : y ≤ z) : roundHalfEven y ≤ roundHalfEven z := by
  have hf : ⌊y⌋ ≤ ⌊z⌋ := Int.floor_mono h
  rcases lt_or_eq_of_le hf with hlt | heq
  · calc roundHalfEven y ≤ ⌊y⌋ + 1 := roundHalfEven_le_floor_succ y
      _ ≤ ⌊z⌋ := hlt
      _ ≤ roundHalfEven z := roundHalfEven_floor_le z
  · unfold roundHalfEven
    rw [heq]
    split_ifs <;> first | omega | (exfalso; linarith)

theorem roundHalfEven_intCast (n : ℤ) : roundHalfEven (n : ℚ) = n :=
  roundHalfEven_eq _ n (by linarith) (by linarith)

theorem ulp_pos (x : ℚ) : 0 < ulp x := by
  unfold ulp; positivity

theorem round64_zero : round64 0 = 0 := by
  unfold round64
  rw [zero_div]
  have := roundHalfEven_intCast 0
  simp only [Int.cast_zero] at this
  rw [this]; simp

theorem round64_nonneg (x : ℚ) (hx : 0 ≤ x) : 0 ≤ round64 x := by
  unfold round64
  have h0 : (0 : ℤ) ≤ roundHalfEven (x / ulp x) :=
    le_trans (Int.floor_nonneg.mpr (div_nonneg hx (ulp_pos x).le)) (roundHalfEven_floor_le _)
  exact mul_nonneg (by exact_mod_cast h0) (ulp_pos x).le

theorem zpow_52_mul (e : ℤ) : (((2 : ℤ) ^ 52 : ℤ) : ℚ) * 2 ^ (e - 52) = 2 ^ e := by
  have h : (((2 : ℤ) ^ 52 : ℤ) : ℚ) = (2 : ℚ) ^ (52 : ℤ) := by norm_num
  rw [h, ← zpow_add₀ (by norm_num : (2 : ℚ) ≠ 0)]
  congr 1
  omega

theorem zpow_53_mul (e : ℤ) : (((2 : ℤ) ^ 53 : ℤ) : ℚ) * 2 ^ (e - 52) = 2 ^ (e + 1) := by
  have h : (((2 : ℤ) ^ 53 : ℤ) : ℚ) = (2 : ℚ) ^ (53 : ℤ) := by norm_num
  rw [h, ← zpow_add₀ (by norm_num : (2 : ℚ) ≠ 0)]
  congr 1
  omega

/-- Rounding to binary64 is monotone on the non-negative rationals. -/
theorem round64_mono (x y : ℚ) (hx : 0 ≤ x) (h : x ≤ y) : round64 x ≤ round64 y := by
  rcases eq_or_lt_of_le hx with rfl | hpos
  · rw [round64_zero]; exact round64_nonneg y h
  have hypos : 0 < y := lt_of_lt_of_le hpos h
  have hlog : Int.log 2 |x| ≤ Int.log 2 |y| := by
    rw [abs_of_pos hpos, abs_of_pos hypos]
    exact Int.log_mono_right hpos h
  have hbin : binade x ≤ binade y := by
    unfold binade; omega
  rcases eq_or_lt_of_le hbin with heq | hlt
  · have hu : ulp x = ulp y := by unfold ulp; rw [heq]
    unfold round64
    rw [hu]
    have := roundHalfEven_mono (x / ulp y) (y / ulp y)
      (div_le_div_of_nonneg_right h (ulp_pos y).le)
    exact mul_le_mul_of_nonneg_right (by exact_mod_cast this) (ulp_pos y).le
  · have hy2 : binade y = Int.log 2 |y| := by
      unfold binade at hlt ⊢; omega
    have hx1 : Int.log 2 |x| ≤ binade x := by unfold binade; omega
    have hylow : (2 : ℚ) ^ binade y ≤ round64 y := by
      have h1 : (2 : ℚ) ^ binade y ≤ y := by
        rw [hy2, abs_of_pos hypos]
        exact_mod_cast Int.zpow_log_le_self (b := 2) (by norm_num) hypos
      have h2 : (((2 : ℤ) ^ 52 : ℤ) : ℚ) ≤ y / ulp y := by
        rw [le_div_iff₀ (ulp_pos y)]
        unfold ulp
        rw [zpow_52_mul]
        exact h1
      have h3 : (2 : ℤ) ^ 52 ≤ roundHalfEven (y / ulp y) := by
        have := roundHalfEven_mono _ _ h2
        rwa [roundHalfEven_intCast] at this
      unfold round64
      calc (2 : ℚ) ^ binade y = ((2 : ℤ) ^ 52 : ℤ) * ulp y := by
            unfold ulp
            rw [zpow_52_mul]
        _ ≤ roundHalfEven (y / ulp y) * ulp y :=
            mul_le_mul_of_nonneg_right (by exact_mod_cast h3) (ulp_pos y).le
    have hxhigh : round64 x ≤ (2 : ℚ) ^ (binade x + 1) := by
      have h1 : x < (2 : ℚ) ^ (binade x + 1) := by
        have := Int.lt_zpow_succ_log_self (b := 2) (by norm_num) (|x|)
        rw [abs_of_pos hpos] at this hx1
        calc x < (2 : ℚ) ^ (Int.log 2 x + 1) := by exact_mod_cast this
          _ ≤ (2 : ℚ) ^ (binade x + 1) := zpow_le_zpow_right₀ (by norm_num) (by omega)
      have h2 : x / ulp x ≤ (((2 : ℤ) ^ 53 : ℤ) : ℚ) := by
        rw [div_le_iff₀ (ulp_pos x)]
        unfold ulp
        rw [zpow_53_mul]
        exact h1.le
      have h3 : roundHalfEven (x / ulp x) ≤ (2 : ℤ) ^ 53 := by
        have := roundHalfEven_mono _ _ h2
        rwa [roundHalfEven_intCast] at this
      unfold round64
      calc roundHalfEven (x / ulp x) * ulp x ≤ ((2 : ℤ) ^ 53 : ℤ) * ulp x :=
            mul_le_mul_of_nonneg_right (by exact_mod_cast h3) (ulp_pos x).le
        _ = (2 : ℚ) ^ (binade x + 1) := by
            unfold ulp
            rw [zpow_53_mul]
    calc round64 x ≤ (2 : ℚ) ^ (binade x + 1) := hxhigh
      _ ≤ (2 : ℚ) ^ binade y := zpow_le_zpow_right₀ (by norm_num) (by omega)
      _ ≤ round64 y := hylow


/-- A binary64 number in `[0, 1)` is at most `1 - 2^-53`. -/
theorem le_pred_one_of_round64_eq (u : ℚ) (hd : round64 u = u) (_h0 : 0 ≤ u) (h1 : u < 1) :
    u ≤ 1 - 1 / 2 ^ 53 := by
  by_contra hc
  push_neg at hc
  have hb : binade u = -1 := by
    apply binade_eq u (-1)
    · rw [abs_of_pos (by linarith)]; norm_num at hc ⊢; linarith
    · rw [abs_of_pos (by linarith)]; norm_num; exact h1
    · norm_num
  have hu : ulp u = 1 / 2 ^ 53 := by
    unfold ulp; rw [hb]; norm_num
  unfold round64 at hd
  rw [hu] at hd
  have hn : (roundHalfEven (u / (1 / 2 ^ 53)) : ℚ) = u * 2 ^ 53 := by
    have : (roundHalfEven (u / (1 / 2 ^ 53)) : ℚ) * (1 / 2 ^ 53) * 2 ^ 53 = u * 2 ^ 53 := by
      rw [hd]
    rw [← this]; ring
  generalize roundHalfEven (u / (1 / 2 ^ 53)) = n at hn
  have h2 : ((2 ^ 53 - 1 : ℤ) : ℚ) < (n : ℚ) := by
    rw [hn]; push_cast; linarith
  have h3 : (n : ℚ) < ((2 ^ 53 : ℤ) : ℚ) := by
    rw [hn]; push_cast; linarith
  have h2' : (2 ^ 53 - 1 : ℤ) < n := by exact_mod_cast h2
  have h3' : n < (2 ^ 53 : ℤ) := by exact_mod_cast h3
  omega

theorem round64_eq_val (x v : ℚ) (e m : ℤ) (h1 : (2 : ℚ) ^ e ≤ |x|) (h2 : |x| < 2 ^ (e + 1))
    (he : -1022 ≤ e) (h3 : (m : ℚ) - 1 / 2 < x / 2 ^ (e - 52))
    (h4 : x / 2 ^ (e - 52) < m + 1 / 2) (hv : v = m * 2 ^ (e - 52)) : round64 x = v := by
  rw [hv]; exact round64_eq x e m h1 h2 he h3 h4

theorem round64_quarter : round64 (25 / 100) = 1 / 4 :=
  round64_eq_val _ _ (-2) (2 ^ 52) (by norm_num [abs_of_pos]) (by norm_num [abs_of_pos])
    (by norm_num) (by norm_num) (by norm_num) (by norm_num)

theorem round64_005 : round64 (5 / 100) = 7205759403792794 / 2 ^ 57 :=
  round64_eq_val _ _ (-5) 7205759403792794 (by norm_num [abs_of_pos])
    (by norm_num [abs_of_pos]) (by norm_num) (by norm_num) (by norm_num) (by norm_num)

theorem round64_03 : round64 (3 / 10) = 5404319552844595 / 2 ^ 54 :=
  round64_eq_val _ _ (-2) 5404319552844595 (by norm_num [abs_of_pos])
    (by norm_num [abs_of_pos]) (by norm_num) (by norm_num) (by norm_num) (by norm_num)

theorem round64_16 : round64 (16 / 10) = 7205759403792794 / 2 ^ 52 :=
  round64_eq_val _ _ 0 7205759403792794 (by norm_num [abs_of_pos])
    (by norm_num [abs_of_pos]) (by norm_num) (by norm_num) (by norm_num) (by norm_num)

theorem round64_19 : round64 (19 / 10) = 8556839292003942 / 2 ^ 52 :=
  round64_eq_val _ _ 0 8556839292003942 (by norm_num [abs_of_pos])
    (by norm_num [abs_of_pos]) (by norm_num) (by norm_num) (by norm_num) (by norm_num)

theorem round64_01 : round64 (1 / 10) = 7205759403792794 / 2 ^ 56 :=
  round64_eq_val _ _ (-4) 7205759403792794 (by norm_num [abs_of_pos])
    (by norm_num [abs_of_pos]) (by norm_num) (by norm_num) (by norm_num) (by norm_num)

theorem round64_02 : round64 (2 / 10) = 7205759403792794 / 2 ^ 55 :=
  round64_eq_val _ _ (-3) 7205759403792794 (by norm_num [abs_of_pos])
    (by norm_num [abs_of_pos]) (by norm_num) (by norm_num) (by norm_num) (by norm_num)


theorem round64_half : round64 (1 / 2) = 1 / 2 :=
  round64_eq_val _ _ (-1) (2 ^ 52) (by norm_num [abs_of_pos]) (by norm_num [abs_of_pos])
    (by norm_num) (by norm_num) (by norm_num) (by norm_num)

theorem round64_pred_one : round64 (1 - 1 / 2 ^ 53) = 1 - 1 / 2 ^ 53 :=
  round64_eq_val _ _ (-1) (2 ^ 53 - 1) (by norm_num [abs_of_pos]) (by norm_num [abs_of_pos])
    (by norm_num) (by norm_num) (by norm_num) (by norm_num)

theorem round64_max_quarter : round64 ((1 - 1 / 2 ^ 53) * (1 / 4)) = (1 - 1 / 2 ^ 53) / 4 :=
  round64_eq_val _ _ (-3) (2 ^ 53 - 1) (by norm_num [abs_of_pos]) (by norm_num [abs_of_pos])
    (by norm_num) (by norm_num) (by norm_num) (by norm_num)

theorem round64_alpha_max :
    round64 ((1 - 1 / 2 ^ 53) / 4 + 7205759403792794 / 2 ^ 57) = 5404319552844595 / 2 ^ 54 :=
  round64_eq_val _ _ (-2) 5404319552844595 (by norm_num [abs_of_pos])
    (by norm_num [abs_of_pos]) (by norm_num) (by norm_num) (by norm_num) (by norm_num)

theorem round64_005_idem : round64 (7205759403792794 / 2 ^ 57) = 7205759403792794 / 2 ^ 57 :=
  round64_eq_val _ _ (-5) 7205759403792794 (by norm_num [abs_of_pos])
    (by norm_num [abs_of_pos]) (by norm_num) (by norm_num) (by norm_num) (by norm_num)

theorem round64_max_16 :
    round64 ((1 - 1 / 2 ^ 53) * (7205759403792794 / 2 ^ 52)) = 7205759403792793 / 2 ^ 52 :=
  round64_eq_val _ _ 0 7205759403792793 (by norm_num [abs_of_pos])
    (by norm_num [abs_of_pos]) (by norm_num) (by norm_num) (by norm_num) (by norm_num)

theorem round64_r_max :
    round64 (7205759403792793 / 2 ^ 52 + 5404319552844595 / 2 ^ 54) =
      8556839292003942 / 2 ^ 52 :=
  round64_eq_val _ _ 0 8556839292003942 (by norm_num [abs_of_pos])
    (by norm_num [abs_of_pos]) (by norm_num) (by norm_num) (by norm_num) (by norm_num)

theorem round64_03_idem : round64 (5404319552844595 / 2 ^ 54) = 5404319552844595 / 2 ^ 54 :=
  round64_eq_val _ _ (-2) 5404319552844595 (by norm_num [abs_of_pos])
    (by norm_num [abs_of_pos]) (by norm_num) (by norm_num) (by norm_num) (by norm_num)

theorem round64_max_02 :
    round64 ((1 - 1 / 2 ^ 53) * (7205759403792794 / 2 ^ 55)) = 7205759403792793 / 2 ^ 55 :=
  round64_eq_val _ _ (-3) 7205759403792793 (by norm_num [abs_of_pos])
    (by norm_num [abs_of_pos]) (by norm_num) (by norm_num) (by norm_num) (by norm_num)

theorem round64_speed_max :
    round64 (7205759403792794 / 2 ^ 56 + 7205759403792793 / 2 ^ 55) =
      5404319552844595 / 2 ^ 54 :=
  round64_eq_val _ _ (-2) 5404319552844595 (by norm_num [abs_of_pos])
    (by norm_num [abs_of_pos]) (by norm_num) (by norm_num) (by norm_num) (by norm_num)

theorem round64_01_idem : round64 (7205759403792794 / 2 ^ 56) = 7205759403792794 / 2 ^ 56 :=
  round64_eq_val _ _ (-4) 7205759403792794 (by norm_num [abs_of_pos])
    (by norm_num [abs_of_pos]) (by norm_num) (by norm_num) (by norm_num) (by norm_num)

/-! ## Lemmas on the background particles in binary64 arithmetic -/

theorem alpha64_bounds (u : ℚ) (h0 : 0 ≤ u) (h1 : u ≤ 1 - 1 / 2 ^ 53) :
    7205759403792794 / 2 ^ 57 ≤
        round64 (round64 (u * round64 (25 / 100)) + round64 (5 / 100)) ∧
      round64 (round64 (u * round64 (25 / 100)) + round64 (5 / 100)) ≤
        5404319552844595 / 2 ^ 54 := by
  rw [round64_quarter, round64_005]
  have ht0 := round64_nonneg (u * (1 / 4)) (by positivity)
  have ht1 : round64 (u * (1 / 4)) ≤ (1 - 1 / 2 ^ 53) / 4 := by
    have := round64_mono (u * (1 / 4)) ((1 - 1 / 2 ^ 53) * (1 / 4)) (by positivity)
      (by linarith)
    rwa [round64_max_quarter] at this
  constructor
  · have := round64_mono (7205759403792794 / 2 ^ 57)
      (round64 (u * (1 / 4)) + 7205759403792794 / 2 ^ 57) (by norm_num) (by linarith)
    rwa [round64_005_idem] at this
  · have := round64_mono (round64 (u * (1 / 4)) + 7205759403792794 / 2 ^ 57)
      ((1 - 1 / 2 ^ 53) / 4 + 7205759403792794 / 2 ^ 57)
      (add_nonneg ht0 (by norm_num)) (by linarith)
    rwa [round64_alpha_max] at this

theorem r64_bounds (u : ℚ) (h0 : 0 ≤ u) (h1 : u ≤ 1 - 1 / 2 ^ 53) :
    5404319552844595 / 2 ^ 54 ≤
        round64 (round64 (u * round64 (16 / 10)) + round64 (3 / 10)) ∧
      round64 (round64 (u * round64 (16 / 10)) + round64 (3 / 10)) ≤
        8556839292003942 / 2 ^ 52 := by
  rw [round64_16, round64_03]
  have ht0 := round64_nonneg (u * (7205759403792794 / 2 ^ 52)) (by positivity)
  have ht1 : round64 (u * (7205759403792794 / 2 ^ 52)) ≤ 7205759403792793 / 2 ^ 52 := by
    have := round64_mono (u * (7205759403792794 / 2 ^ 52))
      ((1 - 1 / 2 ^ 53) * (7205759403792794 / 2 ^ 52)) (by positivity)
      (mul_le_mul_of_nonneg_right h1 (by norm_num))
    rwa [round64_max_16] at this
  constructor
  · have := round64_mono (5404319552844595 / 2 ^ 54)
      (round64 (u * (7205759403792794 / 2 ^ 52)) + 5404319552844595 / 2 ^ 54)
      (by norm_num) (by linarith)
    rwa [round64_03_idem] at this
  · have := round64_mono
      (round64 (u * (7205759403792794 / 2 ^ 52)) + 5404319552844595 / 2 ^ 54)
      (7205759403792793 / 2 ^ 52 + 5404319552844595 / 2 ^ 54)
      (add_nonneg ht0 (by norm_num)) (by linarith)
    rwa [round64_r_max] at this

theorem speed64_bounds (u : ℚ) (h0 : 0 ≤ u) (h1 : u ≤ 1 - 1 / 2 ^ 53) :
    7205759403792794 / 2 ^ 56 ≤
        round64 (round64 (1 / 10) + round64 (u * round64 (2 / 10))) ∧
      round64 (round64 (1 / 10) + round64 (u * round64 (2 / 10))) ≤
        5404319552844595 / 2 ^ 54 := by
  rw [round64_01, round64_02]
  have ht0 := round64_nonneg (u * (7205759403792794 / 2 ^ 55)) (by positivity)
  have ht1 : round64 (u * (7205759403792794 / 2 ^ 55)) ≤ 7205759403792793 / 2 ^ 55 := by
    have := round64_mono (u * (7205759403792794 / 2 ^ 55))
      ((1 - 1 / 2 ^ 53) * (7205759403792794 / 2 ^ 55)) (by positivity)
      (mul_le_mul_of_nonneg_right h1 (by norm_num))
    rwa [round64_max_02] at this
  constructor
  · have := round64_mono (7205759403792794 / 2 ^ 56)
      (7205759403792794 / 2 ^ 56 + round64 (u * (7205759403792794 / 2 ^ 55)))
      (by norm_num) (by linarith)
    rwa [round64_01_idem] at this
  · have := round64_mono
      (7205759403792794 / 2 ^ 56 + round64 (u * (7205759403792794 / 2 ^ 55)))
      (7205759403792794 / 2 ^ 56 + 7205759403792793 / 2 ^ 55)
      (add_nonneg (by norm_num) ht0) (by linarith)
    rwa [round64_speed_max] at this

theorem bgCallback64_fields (w h : ℕ) (rnd : ℕ → ℚ) (c : ℕ) (p : BgParticle) :
    (bgCallback64 w h rnd c p).1.r = p.r ∧ (bgCallback64 w h rnd c p).1.alpha = p.alpha ∧
      (bgCallback64 w h rnd c p).1.speedY = p.speedY := by
  unfold bgCallback64
  split <;> simp

theorem drawParticlesFrom64_length (w h : ℕ) (rnd : ℕ → ℚ) (c : ℕ) (ps : List BgParticle) :
    (drawParticlesFrom64 w h rnd c ps).length = ps.length := by
  induction ps generalizing c with
  | nil => rfl
  | cons p rest ih => simp [drawParticlesFrom64, ih]

theorem drawParticlesFrom64_fields (w h : ℕ) (rnd : ℕ → ℚ) (c : ℕ) (ps : List BgParticle) :
    (drawParticlesFrom64 w h rnd c ps).map (fun p => (p.r, p.alpha, p.speedY)) =
      ps.map (fun p => (p.r, p.alpha, p.speedY)) := by
  induction ps generalizing c with
  | nil => rfl
  | cons p rest ih =>
    have hf := bgCallback64_fields w h rnd c p
    simp [drawParticlesFrom64, ih, hf.1, hf.2.1, hf.2.2]

theorem bgFrames64_fields (canvas : ℕ → ℕ × ℕ) (rnds : ℕ → ℕ → ℚ) (n : ℕ)
    (ps : List BgParticle) :
    (bgFrames64 canvas rnds n ps).map (fun p => (p.r, p.alpha, p.speedY)) =
      ps.map (fun p => (p.r, p.alpha, p.speedY)) := by
  induction n with
  | zero => rfl
  | succ n ih => simp only [bgFrames64, drawParticles64, drawParticlesFrom64_fields, ih]

theorem bgParticles64_get? (w h : ℕ) (rnd : ℕ → ℚ) (i : ℕ) (p : BgParticle)
    (hp : (bgParticles64 w h rnd).get? i = some p) :
    i < 160 ∧ p = mkBgParticle64 w h rnd i := by
  unfold bgParticles64 at hp
  rw [List.get?_eq_getElem?, List.getElem?_map] at hp
  by_cases hi : i < 160
  · rw [List.getElem?_range hi] at hp
    simp only [Option.map_some', Option.some.injEq] at hp
    exact ⟨hi, hp.symm⟩
  · rw [List.getElem?_eq_none (by simpa using hi)] at hp
    simp at hp

theorem mem_bgParticles64 (w h : ℕ) (rnd : ℕ → ℚ) (p : BgParticle)
    (hp : p ∈ bgParticles64 w h rnd) : ∃ i, i < 160 ∧ p = mkBgParticle64 w h rnd i := by
  simp only [bgParticles64, List.mem_map, List.mem_range] at hp
  obtain ⟨i, hi, rfl⟩ := hp
  exact ⟨i, hi, rfl⟩

/-! ## Properties of the dissolve burst -/

/-- C1: after any number `n` of `drawBurst` frames on the 80 particles created
by `dissolve`, every particle still in the array has `0 < alpha <= 1`; every
alpha used for drawing in the next frame lies in `(0, 1]`; and the particles
that leave the array in that frame are exactly as many as the callbacks in
which alpha became `<= 0`, so a particle is spliced out in the very frame in
which it turns transparent. -/
theorem burst_alpha_in_range (w h : ℚ) (rnd : ℕ → ℚ) (n : ℕ) :
    (∀ p ∈ burstFrames n (dissolveParticles w h rnd), 0 < p.alpha ∧ p.alpha ≤ 1) ∧
    (∀ a ∈ drawnAlphas (burstFrames n (dissolveParticles w h rnd)), 0 < a ∧ a ≤ 1) ∧
    (drawBurst (burstFrames n (dissolveParticles w h rnd))).particles.length +
        ((drawBurst (burstFrames n (dissolveParticles w h rnd))).visits.filter
          fun v => decide (v.2.advance.alpha ≤ 0)).length =
      (burstFrames n (dissolveParticles w h rnd)).length := by
  have hinit : ∀ p ∈ dissolveParticles w h rnd, p.Visible := by
    intro p hp
    have := dissolveParticles_alpha w h rnd p hp
    exact ⟨by rw [this]; norm_num, by rw [this]⟩
  have hvis := burstFrames_visible n _ hinit
  refine ⟨hvis, ?_, ?_⟩
  · intro a ha
    simp only [drawnAlphas, drawBurst_visits, List.mem_map] at ha
    obtain ⟨v, hv, rfl⟩ := ha
    exact hvis _ (sweepVisits_mem 0 _ v hv).1
  · rw [drawBurst_particles, drawBurst_visits]
    exact sweep_length_add_expired 0 _

/-- C8: starting from the 80 particles of `dissolve`, the array keeps all 80
particles during the first 55 frames, holds 40, 20, 10, 5, 2, 1 and 0
particles after frames 56 to 62, is empty after every later frame, never
grows from one frame to the next and never holds more than 80 particles. -/
theorem burst_is_short_lived (w h : ℚ) (rnd : ℕ → ℚ) :
    (∀ n, n ≤ 55 → (burstFrames n (dissolveParticles w h rnd)).length = 80) ∧
    [56, 57, 58, 59, 60, 61, 62].map
        (fun n => (burstFrames n (dissolveParticles w h rnd)).length) =
      [40, 20, 10, 5, 2, 1, 0] ∧
    (∀ n, 62 ≤ n → burstFrames n (dissolveParticles w h rnd) = []) ∧
    (∀ n, (burstFrames (n + 1) (dissolveParticles w h rnd)).length ≤
      (burstFrames n (dissolveParticles w h rnd)).length) ∧
    (∀ n, (burstFrames n (dissolveParticles w h rnd)).length ≤ 80) := by
  have hlen := dissolveParticles_length w h rnd
  have halpha := dissolveParticles_alpha w h rnd
  have h55 := burstFrames_early _ halpha 55 (le_refl _)
  have hexp : ∀ p ∈ burstFrames 55 (dissolveParticles w h rnd), p.advance.alpha ≤ 0 := by
    intro p hp
    rw [advance_alpha, h55.1 p hp]
    norm_num
  have hlate : ∀ m, (burstFrames (55 + m) (dissolveParticles w h rnd)).length = 80 / 2 ^ m := by
    intro m
    rw [burstFrames_add, (burstFrames_late _ hexp m).2, h55.2, hlen]
  refine ⟨?_, ?_, ?_, ?_, ?_⟩
  · intro n hn
    rw [(burstFrames_early _ halpha n hn).2, hlen]
  · have h1 := hlate 1
    have h2 := hlate 2
    have h3 := hlate 3
    have h4 := hlate 4
    have h5 := hlate 5
    have h6 := hlate 6
    have h7 := hlate 7
    norm_num at h1 h2 h3 h4 h5 h6 h7
    simp [h1, h2, h3, h4, h5, h6, h7]
  · intro n hn
    obtain ⟨m, rfl⟩ : ∃ m, n = 55 + 7 + m := ⟨n - 62, by omega⟩
    have h7 : burstFrames (55 + 7) (dissolveParticles w h rnd) = [] := by
      apply List.length_eq_zero.mp
      rw [hlate 7]
      norm_num
    rw [burstFrames_add, h7]
    exact List.length_eq_zero.mp (Nat.le_zero.mp (burstFrames_length_le m []))
  · intro n
    rw [burstFrames_succ, drawBurst_particles]
    exact sweep_length_le _
  · intro n
    rw [← hlen]
    exact burstFrames_length_le n _

/-- C9: when the `forEach` of `drawBurst` reaches index `k`, finds particle
`p` there and splices it out, the particle `s` standing at index `k + 1` at
that moment is one the pass has not visited yet, it is still in the array at
the end of the frame, unchanged, at index `k`, and no callback of the frame
handles it: the earlier callbacks ran at indices below `k`, the later ones at
indices above `k`. In particular a frame in which every visited particle
expires keeps exactly the particles of the odd positions, untouched:
`floor(n/2)` of `n` stay and `ceil(n/2)` are removed. -/
theorem burst_splice_skips_successor (ps : List Particle) (k : ℕ) (p s : Particle)
    (hp : (burstLoop k 0 { particles := ps, visits := [] }).particles.get? k = some p)
    (he : p.advance.alpha ≤ 0)
    (hs : (burstLoop k 0 { particles := ps, visits := [] }).particles.get? (k + 1) = some s) :
    drawBurst ps =
      burstLoop (ps.length - k) k (burstLoop k 0 { particles := ps, visits := [] }) ∧
    (∃ r, (burstLoop k 0 { particles := ps, visits := [] }).particles.length + r = ps.length ∧
      ps.get? (k + 1 + r) = some s) ∧
    (drawBurst ps).particles.get? k = some s ∧
    (∃ later,
      (drawBurst ps).visits =
        (burstLoop k 0 { particles := ps, visits := [] }).visits ++ (k, p) :: later ∧
      (∀ v ∈ (burstLoop k 0 { particles := ps, visits := [] }).visits, v.1 < k) ∧
      ∀ v ∈ later, k < v.1) ∧
    (∀ qs : List Particle, (∀ q ∈ qs, q.advance.alpha ≤ 0) →
      (∀ j, (drawBurst qs).particles.get? j = qs.get? (2 * j + 1)) ∧
      (drawBurst qs).particles.length = qs.length / 2 ∧
      qs.length - (drawBurst qs).particles.length = (qs.length + 1) / 2 ∧
      (drawBurst qs).visits.length = (qs.length + 1) / 2) := by
  obtain ⟨r, hr1, hr2⟩ := burstLoop_drop k 0 { particles := ps, visits := [] }
  obtain ⟨early, hv1, hv2⟩ := burstLoop_visits k 0 { particles := ps, visits := [] }
  generalize hmid : burstLoop k 0 { particles := ps, visits := [] } = mid at *
  simp only [Nat.zero_add, List.nil_append] at hr1 hr2 hv1 hv2
  have hklt : k < mid.particles.length := by
    by_contra hc
    rw [List.get?_eq_none.mpr (by omega)] at hp
    cases hp
  have hsplit : drawBurst ps = burstLoop (ps.length - k) k mid := by
    unfold drawBurst
    rw [show ps.length = k + (ps.length - k) by omega, burstLoop_add, hmid, Nat.zero_add]
    congr 1
    omega
  obtain ⟨m, hm⟩ : ∃ m, ps.length - k = m + 1 := ⟨ps.length - k - 1, by omega⟩
  have hstep : drawBurst ps =
      burstLoop m (k + 1)
        { particles := mid.particles.eraseIdx k, visits := mid.visits ++ [(k, p)] } := by
    rw [hsplit, hm, burstLoop_succ_some _ _ _ p hp, burstCallback_expired _ _ _ he]
  refine ⟨hsplit, ⟨r, hr1, ?_⟩, ?_, ?_, ?_⟩
  · have h1 := congrArg (fun l => l.get? 1) hr2
    simp only [List.get?_eq_getElem?, List.getElem?_drop] at h1
    rw [List.get?_eq_getElem?, show k + 1 + r = k + r + 1 by omega, ← h1,
      ← List.get?_eq_getElem?]
    exact hs
  · rw [hstep]
    rw [get?_eq_of_take_eq _ _ k (burstLoop_take m (k + 1) _)]
    simp only []
    rw [get?_eraseIdx_self]
    exact hs
  · obtain ⟨later, hl1, hl2⟩ := burstLoop_visits m (k + 1)
      { particles := mid.particles.eraseIdx k, visits := mid.visits ++ [(k, p)] }
    refine ⟨later, ?_, ?_, ?_⟩
    · rw [hstep, hl1]; simp
    · intro v hv
      rw [hv1] at hv
      exact (hv2 v hv).2
    · intro v hv
      have := (hl2 v hv).1
      omega
  · intro qs hq
    have h := sweep_of_all_expire qs hq
    have hcount := sweep_length_add_expired 0 qs
    rw [List.filter_eq_self.mpr (by
      intro v hv
      simpa [Particle.Expires] using hq _ (sweepVisits_mem 0 qs v hv).1)] at hcount
    rw [drawBurst_particles, drawBurst_visits]
    refine ⟨h.1, h.2, ?_, ?_⟩ <;> rw [h.2] at * <;> omega

/-- C9 at a concrete array: the first particle survives its visit, the second
expires at index 1, so the third moves to index 1 unvisited and unchanged;
and of two expiring particles the second one is left untouched. -/
theorem burst_splice_skips_successor_witness :
    (drawBurst [⟨0, 0, 1, 1, 1, 1⟩, ⟨0, 0, 1, 1, 1, 1 / 100⟩, ⟨5, 5, 1, 1, 1, 1 / 2⟩]).particles.get? 1
        = some ⟨5, 5, 1, 1, 1, 1 / 2⟩ ∧
    (drawBurst [⟨0, 0, 1, 1, 1, 1 / 100⟩, ⟨7, 7, 1, 1, 1, 1 / 100⟩]).particles.get? 0
        = some ⟨7, 7, 1, 1, 1, 1 / 100⟩ := by
  have h := burst_splice_skips_successor
    [⟨0, 0, 1, 1, 1, 1⟩, ⟨0, 0, 1, 1, 1, 1 / 100⟩, ⟨5, 5, 1, 1, 1, 1 / 2⟩] 1
    ⟨0, 0, 1, 1, 1, 1 / 100⟩ ⟨5, 5, 1, 1, 1, 1 / 2⟩
    (by norm_num [burstLoop, burstCallback, Particle.advance])
    (by norm_num [Particle.advance])
    (by norm_num [burstLoop, burstCallback, Particle.advance])
  refine ⟨h.2.2.1, ?_⟩
  have h2 := (h.2.2.2.2 [⟨0, 0, 1, 1, 1, 1 / 100⟩, ⟨7, 7, 1, 1, 1, 1 / 100⟩]
    (by intro q hq; simp at hq; rcases hq with rfl | rfl <;> norm_num [Particle.advance])).1 0
  simpa using h2

/-! ## Properties of the background particles -/

theorem bgParticles_get? (w h : ℚ) (rnd : ℕ → ℚ) (i : ℕ) (p : BgParticle)
    (hp : (bgParticles w h rnd).get? i = some p) : i < 160 ∧ p = mkBgParticle w h rnd i := by
  unfold bgParticles at hp
  rw [List.get?_eq_getElem?, List.getElem?_map] at hp
  by_cases hi : i < 160
  · rw [List.getElem?_range hi] at hp
    simp only [Option.map_some', Option.some.injEq] at hp
    exact ⟨hi, hp.symm⟩
  · rw [List.getElem?_eq_none (by simpa using hi)] at hp
    simp at hp

theorem mem_bgParticles (w h : ℚ) (rnd : ℕ → ℚ) (p : BgParticle)
    (hp : p ∈ bgParticles w h rnd) : ∃ i, i < 160 ∧ p = mkBgParticle w h rnd i := by
  simp only [bgParticles, List.mem_map, List.mem_range] at hp
  obtain ⟨i, hi, rfl⟩ := hp
  exact ⟨i, hi, rfl⟩

/-- C2: `bgParticles` is created with exactly 160 particles; one
`drawParticles` frame, for any array and any canvas size, returns an array of
the same length whose entries keep their positions (the radius, opacity and
speed found at each index are the ones that were there before); and after any
number of frames, whatever the canvas sizes, the array still has 160 entries. -/
theorem bgParticles_fixed_size (w h : ℚ) (rnd : ℕ → ℚ) :
    (bgParticles w h rnd).length = 160 ∧
    (∀ (ps : List BgParticle) (w2 h2 : ℚ) (rnd2 : ℕ → ℚ),
      (drawParticles w2 h2 rnd2 ps).length = ps.length ∧
      (drawParticles w2 h2 rnd2 ps).map (fun p => (p.r, p.alpha, p.speedY)) =
        ps.map (fun p => (p.r, p.alpha, p.speedY))) ∧
    (∀ (canvas : ℕ → ℚ × ℚ) (rnds : ℕ → ℕ → ℚ) (n : ℕ),
      (bgFrames canvas rnds n (bgParticles w h rnd)).length = 160) := by
  have hlen : (bgParticles w h rnd).length = 160 := by simp [bgParticles]
  refine ⟨hlen, fun ps w2 h2 rnd2 => ⟨drawParticlesFrom_length _ _ _ _ _,
    drawParticlesFrom_fields _ _ _ _ _⟩, fun canvas rnds n => ?_⟩
  rw [bgFrames_length, hlen]

/-- C3: on a fixed canvas of width `w >= 0` and height `h >= 0`, a
`drawParticles` frame maps the particle at every index to the same particle
with `y - speedY` when `y - speedY >= -5`, and otherwise to the particle with
`y = h + 5` and `x = u * w` for the next unused random value `u` of the frame;
hence particles that start with `0 <= x <= w`, `0 <= y <= h` and `speedY` in
`[0.1, 0.3)`, in particular the particles `bgParticles` creates, satisfy
`-5 <= y <= h + 5` and `0 <= x <= w` after every number of frames. -/
theorem bgParticles_wrap_around (w h : ℚ) (hw : 0 ≤ w) (hh : 0 ≤ h) (rnds : ℕ → ℕ → ℚ)
    (hr : ∀ n j, 0 ≤ rnds n j ∧ rnds n j < 1) (ps : List BgParticle)
    (hps : ∀ p ∈ ps, 0 ≤ p.x ∧ p.x ≤ w ∧ 0 ≤ p.y ∧ p.y ≤ h ∧
      1 / 10 ≤ p.speedY ∧ p.speedY < 3 / 10) (n : ℕ) :
    (∀ (qs : List BgParticle) (rnd : ℕ → ℚ) (i : ℕ) (p : BgParticle), qs.get? i = some p →
      (drawParticles w h rnd qs).get? i =
        some (if -5 ≤ p.y - p.speedY then { p with y := p.y - p.speedY }
          else { p with x := rnd ((qs.take i).filter BgParticle.wraps).length * w,
                        y := h + 5 })) ∧
    (∀ p ∈ bgFrames (fun _ => (w, h)) rnds n ps,
      -5 ≤ p.y ∧ p.y ≤ h + 5 ∧ 0 ≤ p.x ∧ p.x ≤ w) ∧
    (∀ rnd0 : ℕ → ℚ, (∀ j, 0 ≤ rnd0 j ∧ rnd0 j < 1) →
      ∀ p ∈ bgFrames (fun _ => (w, h)) rnds n (bgParticles w h rnd0),
        -5 ≤ p.y ∧ p.y ≤ h + 5 ∧ 0 ≤ p.x ∧ p.x ≤ w) := by
  refine ⟨?_, ?_, ?_⟩
  · intro qs rnd i p hp
    unfold drawParticles
    rw [drawParticlesFrom_get? w h rnd 0 qs i p hp, Nat.zero_add]
    unfold bgCallback
    by_cases hq : p.y - p.speedY < -5
    · simp [hq, not_le.mpr hq]
    · simp [hq, not_lt.mp hq]
  · intro p hp
    have hinit : ∀ q ∈ ps, q.InView w h ∧ 0 ≤ q.speedY := by
      intro q hq
      obtain ⟨h1, h2, h3, h4, h5, -⟩ := hps q hq
      exact ⟨⟨by linarith, by linarith, h1, h2⟩, by linarith⟩
    exact (bgFrames_inView w h hw hh rnds hr ps hinit n p hp).1
  · intro rnd0 hr0 p hp
    have hinit : ∀ q ∈ bgParticles w h rnd0, q.InView w h ∧ 0 ≤ q.speedY := by
      intro q hq
      obtain ⟨i, -, rfl⟩ := mem_bgParticles w h rnd0 q hq
      obtain ⟨h1, h2, h3, h4⟩ := mkBgParticle_inView w h hw hh rnd0 hr0 i
      have h5 := (mkBgParticle_ranges w h rnd0 hr0 i).2.2.1
      exact ⟨⟨by linarith, by linarith, h1, h2⟩, by linarith⟩
    exact (bgFrames_inView w h hw hh rnds hr _ hinit n p hp).1

/-- C3 on an 800 by 600 canvas: a particle at `y = -49/10` with speed `2/10`
drops below `-5` and re-enters at `y = 605` with `x = 1/2 * 800`. -/
theorem bgParticles_wrap_around_witness :
    (drawParticles 800 600 (fun _ => 1 / 2) [⟨10, -49 / 10, 1, 1 / 10, 2 / 10⟩]).get? 0 =
      some ⟨400, 605, 1, 1 / 10, 2 / 10⟩ := by
  have h := (bgParticles_wrap_around 800 600 (by norm_num) (by norm_num)
    (fun _ _ => 1 / 2) (fun _ _ => by norm_num) [⟨10, 0, 1, 1 / 10, 2 / 10⟩]
    (by intro p hp; simp at hp; subst hp; norm_num) 1).1
    [⟨10, -49 / 10, 1, 1 / 10, 2 / 10⟩] (fun _ => 1 / 2) 0 ⟨10, -49 / 10, 1, 1 / 10, 2 / 10⟩ rfl
  rw [h]
  norm_num

/-- C4, amended: in the binary64 arithmetic of the script, with every
`Math.random()` value a binary64 number in `[0, 1)`, the particle created for
index `i` has `alpha = fl(fl(u * 0.25) + 0.05)`, which lies between the
binary64 numbers nearest to 0.05 and 0.30, both included, and so satisfies
`0.05 <= alpha < 0.30` as a real number; its radius lies between the binary64
numbers nearest to 0.3 and 1.9, both included, and below 1.9; its `speedY`
lies between the binary64 numbers nearest to 0.1 and 0.3, both included, and
in `[0.1, 0.3)`; a `drawParticles` frame leaves the alpha, radius and speed of
every particle unchanged; so after any number of frames every alpha is still
in `[0.05, 0.30)`, inside `[0, 1]`. -/
theorem bgParticles_alpha_valid_binary64 (w h : ℕ) (rnd : ℕ → ℚ)
    (hr : ∀ j, round64 (rnd j) = rnd j ∧ 0 ≤ rnd j ∧ rnd j < 1) :
    (∀ (i : ℕ) (p : BgParticle), (bgParticles64 w h rnd).get? i = some p →
      p.alpha =
        round64 (round64 (rnd (5 * i + 3) * round64 (25 / 100)) + round64 (5 / 100)) ∧
      (round64 (5 / 100) ≤ p.alpha ∧ p.alpha ≤ round64 (30 / 100)) ∧
      (5 / 100 ≤ p.alpha ∧ p.alpha < 30 / 100) ∧
      p.r = round64 (round64 (rnd (5 * i + 2) * round64 (16 / 10)) + round64 (3 / 10)) ∧
      (round64 (3 / 10) ≤ p.r ∧ p.r ≤ round64 (19 / 10)) ∧ p.r < 19 / 10 ∧
      p.speedY =
        round64 (round64 (1 / 10) + round64 (rnd (5 * i + 4) * round64 (2 / 10))) ∧
      (round64 (1 / 10) ≤ p.speedY ∧ p.speedY ≤ round64 (3 / 10)) ∧
      (1 / 10 ≤ p.speedY ∧ p.speedY < 3 / 10)) ∧
    (∀ (ps : List BgParticle) (w2 h2 : ℕ) (rnd2 : ℕ → ℚ),
      (drawParticles64 w2 h2 rnd2 ps).map (fun p => (p.r, p.alpha, p.speedY)) =
        ps.map (fun p => (p.r, p.alpha, p.speedY))) ∧
    (∀ (canvas : ℕ → ℕ × ℕ) (rnds : ℕ → ℕ → ℚ) (n : ℕ),
      ∀ p ∈ bgFrames64 canvas rnds n (bgParticles64 w h rnd),
        (5 / 100 ≤ p.alpha ∧ p.alpha < 30 / 100) ∧ 0 ≤ p.alpha ∧ p.alpha ≤ 1) := by
  have hu : ∀ j, 0 ≤ rnd j ∧ rnd j ≤ 1 - 1 / 2 ^ 53 := fun j =>
    ⟨(hr j).2.1, le_pred_one_of_round64_eq (rnd j) (hr j).1 (hr j).2.1 (hr j).2.2⟩
  have h30 : round64 (30 / 100) = 5404319552844595 / 2 ^ 54 := by
    rw [show (30 / 100 : ℚ) = 3 / 10 by norm_num, round64_03]
  have halpha : ∀ i, (5 / 100 ≤ (mkBgParticle64 w h rnd i).alpha ∧
      (mkBgParticle64 w h rnd i).alpha < 30 / 100) := by
    intro i
    have ha := alpha64_bounds (rnd (5 * i + 3)) (hu _).1 (hu _).2
    simp only [mkBgParticle64]
    constructor
    · exact le_trans (by norm_num) ha.1
    · exact lt_of_le_of_lt ha.2 (by norm_num)
  refine ⟨?_, fun ps w2 h2 rnd2 => drawParticlesFrom64_fields _ _ _ _ _, ?_⟩
  · intro i p hp
    obtain ⟨-, rfl⟩ := bgParticles64_get? w h rnd i p hp
    have ha := alpha64_bounds (rnd (5 * i + 3)) (hu _).1 (hu _).2
    have hrr := r64_bounds (rnd (5 * i + 2)) (hu _).1 (hu _).2
    have hs := speed64_bounds (rnd (5 * i + 4)) (hu _).1 (hu _).2
    refine ⟨rfl, ?_, halpha i, rfl, ?_, ?_, rfl, ?_, ?_⟩
    · rw [round64_005, h30]; exact ha
    · rw [round64_03, round64_19]; exact hrr
    · exact lt_of_le_of_lt hrr.2 (by norm_num)
    · rw [round64_01, round64_03]; exact hs
    · exact ⟨le_trans (by norm_num) hs.1, lt_of_le_of_lt hs.2 (by norm_num)⟩
  · intro canvas rnds n p hp
    have hmem : (p.r, p.alpha, p.speedY) ∈
        (bgFrames64 canvas rnds n (bgParticles64 w h rnd)).map
          (fun p => (p.r, p.alpha, p.speedY)) := List.mem_map_of_mem _ hp
    rw [bgFrames64_fields] at hmem
    obtain ⟨q, hq, heq⟩ := List.mem_map.mp hmem
    obtain ⟨i, -, rfl⟩ := mem_bgParticles64 w h rnd q hq
    have ha := halpha i
    have hal : (mkBgParticle64 w h rnd i).alpha = p.alpha := by
      have := congrArg (fun t => t.2.1) heq
      simpa using this
    rw [hal] at ha
    exact ⟨ha, by linarith [ha.1], by linarith [ha.2]⟩

/-- C4, amended, with every random value equal to `1/2` on an 800 by 600
canvas: the alpha of the first particle lies in `[0.05, 0.30)`. -/
theorem bgParticles_alpha_valid_binary64_witness :
    5 / 100 ≤ (mkBgParticle64 800 600 (fun _ => 1 / 2) 0).alpha ∧
      (mkBgParticle64 800 600 (fun _ => 1 / 2) 0).alpha < 30 / 100 := by
  have h := (bgParticles_alpha_valid_binary64 800 600 (fun _ => 1 / 2)
    (fun _ => ⟨round64_half, by norm_num, by norm_num⟩)).1 0
    (mkBgParticle64 800 600 (fun _ => 1 / 2) 0) (by simp [bgParticles64])
  exact h.2.2.1

/-- C4 as stated fails in the arithmetic of the script. With
`Math.random() = 0` the radius is the binary64 number nearest to 0.3, which is
below `3/10`, so `0.3 <= r` fails. With `Math.random() = 1 - 2^-53`, the
largest binary64 number below 1, the alpha is the binary64 number the script
reads `0.30` as, the radius the one it reads `1.9` as and `speedY` the one it
reads `0.3` as, so the strict upper bounds fail as the script compares. -/
theorem bgParticles_alpha_strict_bounds_counterexample :
    (round64 0 = 0 ∧ round64 (1 - 1 / 2 ^ 53) = 1 - 1 / 2 ^ 53 ∧
      (1 - 1 / 2 ^ 53 : ℚ) < 1) ∧
    ¬(3 / 10 ≤ (mkBgParticle64 800 600 (fun _ => 0) 0).r) ∧
    ¬((mkBgParticle64 800 600 (fun _ => 1 - 1 / 2 ^ 53) 0).alpha < round64 (30 / 100)) ∧
    ¬((mkBgParticle64 800 600 (fun _ => 1 - 1 / 2 ^ 53) 0).r < round64 (19 / 10)) ∧
    ¬((mkBgParticle64 800 600 (fun _ => 1 - 1 / 2 ^ 53) 0).speedY < round64 (3 / 10)) := by
  have h30 : round64 (30 / 100) = 5404319552844595 / 2 ^ 54 := by
    rw [show (30 / 100 : ℚ) = 3 / 10 by norm_num, round64_03]
  refine ⟨⟨round64_zero, round64_pred_one, by norm_num⟩, ?_, ?_, ?_, ?_⟩
  · simp only [mkBgParticle64]
    rw [round64_16, round64_03, zero_mul, round64_zero, zero_add, round64_03_idem]
    norm_num
  · simp only [mkBgParticle64]
    rw [round64_quarter, round64_005, round64_max_quarter, round64_alpha_max, h30]
    exact lt_irrefl _
  · simp only [mkBgParticle64]
    rw [round64_16, round64_03, round64_max_16, round64_r_max, round64_19]
    exact lt_irrefl _
  · simp only [mkBgParticle64]
    rw [round64_01, round64_02, round64_max_02, round64_speed_max, round64_03]
    exact lt_irrefl _

/-! ## Properties of the outline trace and of the timer sequence -/

theorem runLoop_of_no_timer (n : ℕ) (s : Loop) (h : s.timers = []) : runLoop n s = s := by
  cases n with
  | zero => rfl
  | succ n => simp [runLoop, fireNext, earliestDue, h]

theorem runLoop_add (a b : ℕ) (s : Loop) : runLoop (a + b) s = runLoop b (runLoop a s) := by
  induction a generalizing s with
  | zero => simp [runLoop]
  | succ a ih =>
    rw [show a + 1 + b = (a + b) + 1 by omega]
    simp only [runLoop]
    cases hf : fireNext s with
    | none =>
      cases b with
      | zero => rfl
      | succ b => simp [runLoop, hf]
    | some s2 => exact ih s2

/-- C5: in the nominal timer schedule all 24 timers of the script have fired
after 24 steps and nothing is pending afterwards; the outline phase resolves
at 2000 ms, `dissolve` starts at 5000 ms, at 6500 ms the overlay is removed
and then the shell gets `display: flex` and opacity 0, and at 6600 ms the
shell opacity becomes 1; at every point of the run at which the shell has
been displayed the overlay has already been removed and `dissolve` has
already started. -/
theorem overlay_swap_schedule :
    (runLoop 24 boot).timers = [] ∧
    (∀ n, 24 ≤ n → runLoop n boot = runLoop 24 boot) ∧
    ((runLoop 24 boot).log.filter fun te => te.2.isMilestone) =
      [(2000, Event.outlineResolved), (2000, Event.revealPetalsCalled),
        (5000, Event.dissolveStarted), (6500, Event.overlayRemoved),
        (6500, Event.shellDisplayFlex), (6500, Event.shellOpacity 0),
        (6600, Event.shellOpacity 1)] ∧
    (∀ k, Event.shellDisplayFlex ∈ ((runLoop 24 boot).log.take k).map Prod.snd →
      Event.overlayRemoved ∈ ((runLoop 24 boot).log.take k).map Prod.snd ∧
      Event.dissolveStarted ∈ ((runLoop 24 boot).log.take k).map Prod.snd) := by
  have hq : (runLoop 24 boot).timers = [] := by decide
  refine ⟨hq, ?_, by decide, ?_⟩
  · intro n hn
    obtain ⟨m, rfl⟩ : ∃ m, n = 24 + m := ⟨n - 24, by omega⟩
    rw [runLoop_add, runLoop_of_no_timer m _ hq]
  · have hlen : (runLoop 24 boot).log.length = 27 := by decide
    have hsmall : ∀ k, k < 28 →
        Event.shellDisplayFlex ∈ ((runLoop 24 boot).log.take k).map Prod.snd →
        Event.overlayRemoved ∈ ((runLoop 24 boot).log.take k).map Prod.snd ∧
        Event.dissolveStarted ∈ ((runLoop 24 boot).log.take k).map Prod.snd := by
      decide
    intro k
    by_cases hk : k < 28
    · exact hsmall k hk
    · have h27 := hsmall 27 (by omega)
      rw [List.take_of_length_le (by omega)] at h27 ⊢
      exact h27

/-- C7: `drawOutline` creates exactly 10 outline paths, all with
`fill="none"`, rotated by the entries of `outerAngles` followed by those of
`innerAngles`; path `i` uses `outerPath` when `i < 5` and `innerPath`
otherwise; the timer that starts its trace has delay exactly `150 * i` ms, so
consecutive traces start 150 ms apart, and these are the timers the loop
holds when `drawOutline` returns. -/
theorem outline_trace_staggered :
    outlinePaths.length = 10 ∧
    outlinePaths.map (fun p => p.rotate) = [0, 25, -25, 50, -50, 0, 15, -15, 35, -35] ∧
    outlinePaths.map (fun p => p.rotate) = outerAngles ++ innerAngles ∧
    (∀ p ∈ outlinePaths, p.fill = "none") ∧
    (∀ i, i < 10 →
      (outlinePaths.get? i).map (fun p => p.d) = some (if i < 5 then outerPath else innerPath)) ∧
    (∀ i, i < 10 → outlineDelays.get? i = some (i, 150 * i)) ∧
    (∀ i, i < 9 → (outlineDelays.get? (i + 1)).map (fun id => id.2) =
      (outlineDelays.get? i).map (fun id => id.2 + 150)) ∧
    (∀ i, i < 10 →
      boot.timers.get? i = some { due := 150 * i, task := Task.outlineTrace i }) ∧
    boot.timers.length = 11 := by
  refine ⟨by decide, by decide, by decide, by decide, by decide, by decide, by decide,
    by decide, by decide⟩

/-- C10: in the nominal schedule outline 9 starts its 1000 ms trace at
1350 ms and ends it at 2350 ms, after the 2000 ms at which `drawOutline`
resolves and `revealPetals` is called; outline `i` starts at `150 * i` ms; the
outlines whose trace has ended by 2000 ms are exactly those with `i <= 6`, and
outlines 7, 8 and 9 are still being traced at that time. -/
theorem outline_trace_overruns_reveal :
    timeOf (runLoop 24 boot).log (Event.outlineTraceStarted 9) = some 1350 ∧
    traceEnd (runLoop 24 boot).log 9 = some 2350 ∧
    timeOf (runLoop 24 boot).log Event.outlineResolved = some 2000 ∧
    timeOf (runLoop 24 boot).log Event.revealPetalsCalled = some 2000 ∧
    (∀ i, i < 10 →
      timeOf (runLoop 24 boot).log (Event.outlineTraceStarted i) = some (150 * i) ∧
      traceEnd (runLoop 24 boot).log i = some (150 * i + 1000)) ∧
    (∀ i, i < 10 → (traceFinishedBy (runLoop 24 boot).log 2000 i = true ↔ i ≤ 6)) ∧
    (List.range 10).filter (traceFinishedBy (runLoop 24 boot).log 2000) = [0, 1, 2, 3, 4, 5, 6] ∧
    (List.range 10).filter (traceRunningAt (runLoop 24 boot).log 2000) = [7, 8, 9] := by
  refine ⟨by decide, by decide, by decide, by decide, by decide, by decide, by decide,
    by decide⟩

/-! ## The idle motion of the petals -/

/-- C6: on a page whose global object has no property `i`, the first
`breathe` call of every petal, whatever its base angle, the clock and the
random amplitudes, throws `ReferenceError: i is not defined` instead of
setting the `transform` attribute and requesting the next frame: `i` is
declared in none of the scopes enclosing `breathe`. -/
theorem breathe_throws_reference_error (glob : String → Option ℚ) (hglob : glob "i" = none)
    (sin : ℚ → ℚ) (now angle u1 u2 : ℚ) :
    lexicallyBound breatheScopes "i" = false ∧
    (petalTimer glob sin now angle u1 u2).firstBreathe =
      Except.error (JsError.referenceError "i") ∧
    ∀ amp scaleAmp : ℚ,
      breathe glob sin now angle amp scaleAmp = Except.error (JsError.referenceError "i") := by
  refine ⟨by decide, ?_, ?_⟩
  · simp [petalTimer, breathe, readGlobal, hglob]
  · intro amp scaleAmp
    simp [breathe, readGlobal, hglob]

/-- C6 for the first outer petal (base angle 0) on a page without globals. -/
theorem breathe_throws_reference_error_witness :
    (petalTimer (fun _ => none) (fun _ => 0) 1700000000000 0 (1 / 2) (1 / 2)).firstBreathe =
      Except.error (JsError.referenceError "i") :=
  (breathe_throws_reference_error (fun _ => none) rfl (fun _ => 0) 1700000000000 0
    (1 / 2) (1 / 2)).2.1

/-- X1: if the global object does have a numeric property `i = v` with
`v >= 0`, every `breathe` frame completes, sets `rotate(a + sin(t) * amp)` and
`scale(1 + sin(1.3 * t) * scaleAmp)` with `t = now / (2600 + 200 * v)` (the
same `v` for every petal) and requests the next frame; with `sin` bounded by 1
and the two random values in `[0, 1)` the rotation differs from `a` by less
than 1.1 and the scale lies strictly between 0.985 and 1.015. -/
theorem breathe_with_global_index (glob : String → Option ℚ) (v : ℚ) (hglob : glob "i" = some v)
    (_hv : 0 ≤ v) (sin : ℚ → ℚ) (hsin : ∀ x, -1 ≤ sin x ∧ sin x ≤ 1) (now angle u1 u2 : ℚ)
    (h1 : 0 ≤ u1 ∧ u1 < 1) (h2 : 0 ≤ u2 ∧ u2 < 1) :
    ∃ f : BreatheFrame,
      (petalTimer glob sin now angle u1 u2).firstBreathe = Except.ok f ∧
      f.rotate = angle + sin (now / (2600 + v * 200)) * (8 / 10 + u1 * (3 / 10)) ∧
      f.scale = 1 + sin (now / (2600 + v * 200) * (13 / 10)) * (1 / 100 + u2 * (5 / 1000)) ∧
      f.nextFrameRequested = true ∧
      -(11 / 10) < f.rotate - angle ∧ f.rotate - angle < 11 / 10 ∧
      985 / 1000 < f.scale ∧ f.scale < 1015 / 1000 := by
  refine ⟨{ rotate := angle + sin (now / (2600 + v * 200)) * (8 / 10 + u1 * (3 / 10))
            scale := 1 + sin (now / (2600 + v * 200) * (13 / 10)) * (1 / 100 + u2 * (5 / 1000))
            nextFrameRequested := true },
    by simp only [petalTimer, breathe, readGlobal, hglob], rfl, rfl, rfl, ?_⟩
  simp only []
  have hs1 := hsin (now / (2600 + v * 200))
  have hs2 := hsin (now / (2600 + v * 200) * (13 / 10))
  generalize sin (now / (2600 + v * 200)) = a at hs1
  generalize sin (now / (2600 + v * 200) * (13 / 10)) = b at hs2
  have ha1 : (0 : ℚ) < 8 / 10 + u1 * (3 / 10) := by linarith [h1.1]
  have ha2 : 8 / 10 + u1 * (3 / 10) < 11 / 10 := by linarith [h1.2]
  have hb1 : (0 : ℚ) < 1 / 100 + u2 * (5 / 1000) := by linarith [h2.1]
  have hb2 : 1 / 100 + u2 * (5 / 1000) < 15 / 1000 := by linarith [h2.2]
  refine ⟨?_, ?_, ?_, ?_⟩ <;> nlinarith [hs1.1, hs1.2, hs2.1, hs2.2]

/-- X1 with `i = 0` on the global object and `sin` constantly 1. -/
theorem breathe_with_global_index_witness :
    ∃ f : BreatheFrame,
      (petalTimer (fun _ => some 0) (fun _ => 1) 2600 25 (1 / 2) (1 / 2)).firstBreathe =
        Except.ok f ∧ f.rotate = 25 + 19 / 20 ∧ f.nextFrameRequested = true := by
  obtain ⟨f, hf, hr, -, hn, -⟩ := breathe_with_global_index (fun _ => some 0) 0 rfl
    (le_refl _) (fun _ => 1) (fun _ => by norm_num) 2600 25 (1 / 2) (1 / 2) (by norm_num) (by norm_num)
  exact ⟨f, hf, by rw [hr]; norm_num, hn⟩

end Lotus
